import Mathlib

/-! A read-through LRU cache with idle expiry (`cache/impl.go`).

Shallow embedding of `impl.Fetch`, `New` and `backgroundCleanup` (the locked
loop of a pass and the pause after it), of the two sections of `Fetch` as steps
of interleaved callers, and of the decorators of `logs.go`, `metrics.go` and
`trace.go`, followed by the properties proved about them.

Modelling conventions.

* A `*list.Element` (and the `*note` it carries in `Value`) is a handle, a
  natural number; `impl.notes` is the store that maps a handle to the fields of
  its `note`; `impl.next` is the next handle `PushFront` allocates.
* `impl.list` is the `container/list` of the cache, front first, as the list of
  the handles of its elements.
* `impl.valMap` is the `sync.Map`, as an association list from ids to handles.
* `note.id` is the Go `*int`: `none` is `nil` (the entry is not ready).
* A time is an integer count of clock ticks; `time.Now()` is a parameter of
  every operation that reads the clock, and `time.Since(t)` is `now - t`.
* `impl.calls` is a ghost log of the ids the fetcher was invoked with, oldest
  first; a `Fetcher` is a function of that log and of the id, so that a source
  may answer differently on each invocation.
* A nil-pointer dereference (a panic) is the result `none`.
-/

namespace Cache

/-- A Go `error` value, identified by its message. -/
abbrev Error := String

/-- The pair `(string, error)` a `Fetch` returns; `none` is the `nil` error. -/
abbrev Result := String × Option Error

/-- The `Fetcher` interface of `models.go`: the source. The first argument is
the log of the ids of all earlier invocations. -/
abbrev Fetcher := List Int → Int → Result

/-- The struct `note` (the embedded mutex is left out). -/
structure note where
  ts : Int
  val : String
  id : Option Int
deriving DecidableEq, Repr

/-- The struct `impl`. -/
structure impl where
  notes : Nat → note
  next : Nat
  list : List Nat
  valMap : List (Int × Nat)
  fetcher : Fetcher
  cap : Int
  calls : List Int

/-! ## `sync.Map` -/

/-- The method `valMap.Load`. -/
def Load (m : List (Int × Nat)) (k : Int) : Option Nat :=
  m.lookup k

/-- The method `valMap.Delete`. -/
def Delete (m : List (Int × Nat)) (k : Int) : List (Int × Nat) :=
  m.filter (fun p => p.1 ≠ k)

/-- The method `valMap.Store`. -/
def Store (m : List (Int × Nat)) (k : Int) (el : Nat) : List (Int × Nat) :=
  (k, el) :: Delete m k

/-! ## `container/list` -/

/-- The method `list.Back`: the last element, `none` on the empty list. -/
def Back (l : List Nat) : Option Nat :=
  l.getLast?

/-- The method `list.Remove`: unlinks `e` when it is an element of the list and
does nothing otherwise. -/
def Remove (l : List Nat) (e : Nat) : List Nat :=
  l.erase e

/-- The method `list.PushFront`. -/
def PushFront (l : List Nat) (e : Nat) : List Nat :=
  e :: l

/-- The method `list.MoveToFront`: nothing happens when `e` is not an element
of the list. -/
def MoveToFront (l : List Nat) (e : Nat) : List Nat :=
  if e ∈ l then e :: l.erase e else l

/-- The method `Element.Prev` for an element `e` and the list `l` it was taken
from: the element before `e`, and `none` (nil) when `e` is at the front or is
no longer an element of the list. -/
def Prev : List Nat → Nat → Option Nat
  | [], _ => none
  | [_], _ => none
  | a :: b :: l, e => if a = e then none else if b = e then some a else Prev (b :: l) e

/-! ## The cache -/

/-- The constructor `New`. The reclaimer it starts is `backgroundCleanup`
below, run with the same `interval`. -/
def New (fetcher : Fetcher) (_interval : Int) (cap : Int) : impl :=
  { notes := fun _ => ⟨0, "", none⟩, next := 0, list := [], valMap := [],
    fetcher := fetcher, cap := cap, calls := [] }

/-- Lines 64-72 of `Fetch`: the eviction of the oldest element. The result is
`none` when `*n.id` dereferences nil. -/
def evict (c : impl) : Option impl :=
  if (c.list.length : Int) ≥ c.cap then
    match Back c.list with
    | none => some c
    | some oldest =>
      match (c.notes oldest).id with
      | none => none
      | some k => some { c with list := Remove c.list oldest, valMap := Delete c.valMap k }
  else some c

/-- Lines 59-87 of `Fetch`, the section under `globalMutex`: the element for
`id`, created at the front when the map has none. -/
def admission (c : impl) (now : Int) (id : Int) : Option (impl × Nat) :=
  match Load c.valMap id with
  | some element => some (c, element)
  | none =>
    (evict c).map fun c1 =>
      let el := c1.next
      ({ c1 with
          notes := Function.update c1.notes el { ts := now, val := "", id := none },
          next := el + 1,
          list := PushFront c1.list el,
          valMap := Store c1.valMap id el }, el)

/-- Lines 89-110 of `Fetch`, the section under the mutex of the note. -/
def complete (c : impl) (now : Int) (el : Nat) (id : Int) : Result × impl :=
  match (c.notes el).id with
  | some _ => (((c.notes el).val, none), c)
  | none =>
    let r := c.fetcher c.calls id
    let c1 := { c with calls := c.calls ++ [id] }
    match r.2 with
    | some err =>
      (("", some err), { c1 with list := Remove c1.list el, valMap := Delete c1.valMap id })
    | none =>
      ((r.1, none),
        { c1 with notes := Function.update c1.notes el { ts := now, val := r.1, id := some id } })

/-- Lines 41-53 of `Fetch`: the answer from a ready entry. -/
def hit (c : impl) (now : Int) (element : Nat) : Result × impl :=
  let n := c.notes element
  ((n.val, none),
    { c with
        notes := Function.update c.notes element { n with ts := now },
        list := MoveToFront c.list element })

/-- The method `impl.Fetch`, run with no other goroutine in between. `now` is
the clock when the map is consulted, `later` the clock after the source has
answered. -/
def Fetch (c : impl) (now later : Int) (id : Int) : Option (Result × impl) :=
  match Load c.valMap id with
  | some element =>
    if (c.notes element).id ≠ none then some (hit c now element)
    else (admission c now id).map fun p => complete p.1 later p.2 id
  | none => (admission c now id).map fun p => complete p.1 later p.2 id

/-- One iteration of the loop of `backgroundCleanup` (lines 118-128) at the
element `e`: the cache, the variable `ts` and the next value of `e`. -/
def cleanupBody (now interval : Int) (c : impl) (ts : Option Int) (e : Nat) :
    impl × Option Int × Option Nat :=
  let n := c.notes e
  match n.id with
  | some k =>
    if now - n.ts > interval then
      let l := Remove c.list e
      ({ c with list := l, valMap := Delete c.valMap k }, ts, Prev l e)
    else (c, some (n.ts + interval), Prev c.list e)
  | none => (c, some (n.ts + interval), Prev c.list e)

/-- The loop of `backgroundCleanup` from the element `e` on, for at most `fuel`
iterations. -/
def cleanupLoop (now interval : Int) : Nat → impl → Option Int → Option Nat → impl × Option Int
  | 0, c, ts, _ => (c, ts)
  | _ + 1, c, ts, none => (c, ts)
  | fuel + 1, c, ts, some e =>
    let r := cleanupBody now interval c ts e
    cleanupLoop now interval fuel r.1 r.2.1 r.2.2

/-- One pass of the reclaimer, lines 116-129 of `backgroundCleanup`: the cache
after the pass and the variable `ts`, where `none` is the zero time. The loop
visits an element at most once, so the length of the list is fuel enough. -/
def backgroundCleanup (c : impl) (now interval : Int) : impl × Option Int :=
  cleanupLoop now interval c.list.length c none (Back c.list)

/-! ## Sequential runs -/

/-- A call made on the cache by its single caller, or a pass of the reclaimer;
each carries the readings of the clock it makes. -/
inductive Op where
  | fetch (id : Int) (now later : Int)
  | cleanup (now : Int)
deriving DecidableEq, Repr

/-- The cache after one operation; `interval` is the ttl given to `New`. -/
def step (interval : Int) (c : impl) : Op → Option impl
  | .fetch id now later => (Fetch c now later id).map Prod.snd
  | .cleanup now => some (backgroundCleanup c now interval).1

/-- The cache after a sequence of operations run one at a time. -/
def run (interval : Int) (c : impl) : List Op → Option impl
  | [] => some c
  | op :: ops => (step interval c op).bind fun c1 => run interval c1 ops

/-- A sequence of `Fetch` calls, each given as its id and its two readings of
the clock: the results, oldest first, and the cache afterwards. -/
def fetchAll (c : impl) : List (Int × Int × Int) → Option (List Result × impl)
  | [] => some ([], c)
  | q :: qs =>
    (Fetch c q.2.1 q.2.2 q.1).bind fun r =>
      (fetchAll r.2 qs).map fun rs => (r.1 :: rs.1, rs.2)

/-- The ids of the entries of the list, front first (`none` for an entry that
is not ready). -/
def ids (c : impl) : List (Option Int) :=
  c.list.map fun h => (c.notes h).id

/-- The entry for `k` is the allocated element `el`, ready with value `v`. -/
def CachedAt (c : impl) (k : Int) (v : String) (el : Nat) : Prop :=
  Load c.valMap k = some el ∧ (c.notes el).id ≠ none ∧ (c.notes el).val = v ∧ el < c.next

/-- The invariant of the data model between two calls: the list holds an
element once, every element was allocated, the map holds a key once, and the
map and the list are in bijection through the ids of the (ready) notes. -/
structure Inv (c : impl) : Prop where
  nodup : c.list.Nodup
  bound : ∀ h ∈ c.list, h < c.next
  keys : (c.valMap.map Prod.fst).Nodup
  indexed : ∀ h ∈ c.list, ∃ k, (c.notes h).id = some k ∧ Load c.valMap k = some h
  listed : ∀ k h, Load c.valMap k = some h → h ∈ c.list ∧ (c.notes h).id = some k
  size : c.valMap.length = c.list.length

/-- The pass of the reclaimer in closed form, over the elements still to visit,
the one nearest the back first: the walk goes on past every element it keeps and
ends at the first one it removes. -/
def sweep (now interval : Int) (c : impl) : List Nat → Option Int → impl × Option Int
  | [], ts => (c, ts)
  | e :: rest, ts =>
    match (c.notes e).id with
    | some k =>
      if now - (c.notes e).ts > interval then
        ({ c with list := Remove c.list e, valMap := Delete c.valMap k }, ts)
      else sweep now interval c rest (some ((c.notes e).ts + interval))
    | none => sweep now interval c rest (some ((c.notes e).ts + interval))

/-- The answers a source that does not fail gives to invocations with the ids
`ks` in order, `log` being the ids of the invocations before them. -/
def expected (f : Fetcher) : List Int → List Int → List Result
  | _, [] => []
  | log, k :: ks => ((f log k).1, none) :: expected f (log ++ [k]) ks

/-- The mock source of `impl_test.go` that answers `fmt.Sprintf("test%d", i)`
with a nil error on every invocation. -/
def testFetcher : Fetcher := fun _ i => ("test" ++ toString i, none)

/-- The mock source of `Test_ErrorHandling`: for each id an error on the first
invocation and `fmt.Sprintf("test%d", i)` on the later ones. -/
def flakyFetcher : Fetcher := fun log i =>
  if i ∈ log then ("test" ++ toString i, none) else ("", some "error")

/-- A cache of capacity 2 that is full: the state after `Fetch(0)` and then
`Fetch(1)` on `New testFetcher 100 2`, with key 1 at the front. -/
def fullCache : impl :=
  { notes := fun h =>
      if h = 0 then { ts := 1, val := "test0", id := some 0 }
      else if h = 1 then { ts := 3, val := "test1", id := some 1 }
      else { ts := 0, val := "", id := none },
    next := 2, list := [1, 0], valMap := [(1, 1), (0, 0)],
    fetcher := testFetcher, cap := 2, calls := [0, 1] }

/-- A cache of capacity 3 during a `Fetch(2)` of another goroutine: the keys 0
(back, last access at time 1) and 1 (last access at time 90) are ready, and the
element at the front is the placeholder of key 2, created at time 95. -/
def mixedCache : impl :=
  { notes := fun h =>
      if h = 0 then { ts := 1, val := "test0", id := some 0 }
      else if h = 1 then { ts := 90, val := "test1", id := some 1 }
      else { ts := 95, val := "", id := none },
    next := 3, list := [2, 1, 0], valMap := [(2, 2), (1, 1), (0, 0)],
    fetcher := testFetcher, cap := 3, calls := [0, 1] }

/-- Two caches that differ at most in the time stamps of their notes. -/
def SameButTime (c d : impl) : Prop :=
  c.list = d.list ∧ c.valMap = d.valMap ∧ c.calls = d.calls ∧ c.next = d.next ∧
  c.fetcher = d.fetcher ∧ c.cap = d.cap ∧
  ∀ h, (c.notes h).val = (d.notes h).val ∧ (c.notes h).id = (d.notes h).id

/-- Two outcomes of `Fetch` that agree: both panic, or both return, with the
same result and caches that differ at most in time stamps. -/
def Agree : Option (Result × impl) → Option (Result × impl) → Prop
  | some p, some q => p.1 = q.1 ∧ SameButTime p.2 q.2
  | none, none => True
  | _, _ => False

/-- What the reclaimer does between two passes (lines 131-137 of
`backgroundCleanup`). -/
inductive Pause where
  | sleepUntil (deadline : Int)
  | waitSignal
deriving DecidableEq, Repr

/-- Lines 131-137 of `backgroundCleanup`: with a non-zero `ts` the reclaimer
sleeps until `ts`, with the zero `ts` it waits on the condition variable. -/
def pauseAfter (ts : Option Int) : Pause :=
  match ts with
  | some deadline => Pause.sleepUntil deadline
  | none => Pause.waitSignal

/-- The last access times of the list do not decrease from the back to the
front. -/
def OldestAtBack (c : impl) : Prop :=
  c.list.Pairwise fun a b => (c.notes b).ts ≤ (c.notes a).ts

/-! ## Interleaved callers -/

/-- A caller of `Fetch` that has left the section under `globalMutex` and has
not yet run the section under the mutex of its note: the id it fetches and the
element it holds. -/
structure Caller where
  id : Int
  el : Nat
deriving DecidableEq, Repr

/-- The cache shared by several callers, and the callers between their two
sections, in the order in which they left the first. -/
structure World where
  cache : impl
  waiting : List Caller

/-- A step of one caller: `enter` is the section under `globalMutex` (lines
59-87) of a new caller of `Fetch(id)`, `leave` is the section under the mutex
of the note (lines 90-109) of the waiting caller number `i`. -/
inductive Move where
  | enter (id : Int) (now : Int)
  | leave (i : Nat) (now : Int)
deriving DecidableEq, Repr

/-- The world after a step; `none` is a panic. A `leave` of a caller that does
not exist changes nothing. -/
def move (w : World) : Move → Option World
  | .enter id now =>
    (admission w.cache now id).map fun p =>
      { cache := p.1, waiting := w.waiting ++ [{ id := id, el := p.2 }] }
  | .leave i now =>
    match w.waiting[i]? with
    | none => some w
    | some a =>
      some { cache := (complete w.cache now a.el a.id).2, waiting := w.waiting.eraseIdx i }

/-- The world after the steps of an interleaving, in order. -/
def play (w : World) : List Move → Option World
  | [] => some w
  | m :: ms => (move w m).bind fun w1 => play w1 ms

/-- A source that fails on every invocation. -/
def failingFetcher : Fetcher := fun _ _ => ("", some "error")

/-! ## The decorators (`logs.go`, `metrics.go`, `trace.go`) -/

/-- A `Fetcher` with its state made explicit: the result of `Fetch(id)` in the
state `s`, and the state after the call. -/
abbrev Base (σ : Type) := σ → Int → Result × σ

/-- A source of the cache as a `Base`: its state is the log of its invocations. -/
def logged (f : Fetcher) : Base (List Int) := fun log id => (f log id, log ++ [id])

/-- What a caller that discards the value next to a non-nil error gives back:
`(v, nil)` for `(v, nil)` and `("", err)` for `(v, err)`. -/
def returned (r : Result) : Result :=
  match r.2 with
  | some err => ("", some err)
  | none => (r.1, none)

/-- An entry `zapLogger.Error("Fetch failed", zap.Int("id", id), zap.Error(err))`. -/
structure LogLine where
  msg : String
  id : Int
  err : Error
deriving DecidableEq, Repr

/-- The method `loggerZap.Fetch`: the result, the state of the base and the
lines logged. -/
def loggerZapFetch {σ : Type} (base : Base σ) (s : σ) (id : Int) : Result × σ × List LogLine :=
  let r := base s id
  match r.1.2 with
  | some err => (("", some err), r.2, [{ msg := "Fetch failed", id := id, err := err }])
  | none => ((r.1.1, none), r.2, [])

/-- The method `metrics.Fetch`, with the clock at entry and in the deferred
function: the result, the state of the base and the observation made by the
deferred function, its label and the duration in ticks. -/
def metricsFetch {σ : Type} (base : Base σ) (s : σ) (id : Int) (start stop : Int) :
    Result × σ × List (String × Int) :=
  let r := base s id
  let observed := [(if r.1.2 ≠ none then "error" else "success", stop - start)]
  match r.1.2 with
  | some err => (("", some err), r.2, observed)
  | none => ((r.1.1, none), r.2, observed)

/-- The fields `span.LogKV("event", "fetch_complete", "id", id, "error", err)`
logs before `span.Finish()`. -/
structure SpanLog where
  event : String
  id : Int
  error : Option Error
deriving DecidableEq, Repr

/-- The method `trace.Fetch`: the result, the state of the base and what the
deferred function logs on the span. -/
def traceFetch {σ : Type} (base : Base σ) (s : σ) (id : Int) : Result × σ × List SpanLog :=
  let r := base s id
  let logs := [{ event := "fetch_complete", id := id, error := r.1.2 : SpanLog }]
  match r.1.2 with
  | some err => (("", some err), r.2, logs)
  | none => ((r.1.1, none), r.2, logs)

/-- A source that fails on its first two invocations for an id and answers
`fmt.Sprintf("test%d", i)` afterwards. -/
def failsTwice : Fetcher := fun log i =>
  if log.count i < 2 then ("", some "error") else ("test" ++ toString i, none)

/-- An interleaving of five callers of `Fetch(7)` on `New failsTwice 100 1000`:
A enters, B joins the placeholder of A, A fails, C enters and creates the
element 1, B fails (and deletes the key of C), C loads the element 1 at time
5, D enters and creates the element 2 at time 6. -/
def fiveCallers : List Move :=
  [.enter 7 0, .enter 7 1, .leave 0 2, .enter 7 3, .leave 0 4, .leave 0 5, .enter 7 6]

/-! ## Properties of the map -/

theorem Load_nil (k : Int) : Load [] k = none := rfl

theorem Load_cons (p : Int × Nat) (m : List (Int × Nat)) (k : Int) :
    Load (p :: m) k = if k = p.1 then some p.2 else Load m k := by
  obtain ⟨a, b⟩ := p
  unfold Load
  by_cases h : k = a
  · subst h; simp [List.lookup]
  · have : (k == a) = false := by simpa using h
    simp [List.lookup, this, h]

theorem mem_Delete {m : List (Int × Nat)} {k : Int} {p : Int × Nat} :
    p ∈ Delete m k ↔ p ∈ m ∧ p.1 ≠ k := by
  simp [Delete, List.mem_filter]

theorem Load_Delete_self (m : List (Int × Nat)) (k : Int) : Load (Delete m k) k = none := by
  induction m with
  | nil => rfl
  | cons p m ih =>
    by_cases h : p.1 = k
    · simpa [Delete, List.filter_cons, h] using ih
    · have h2 : ¬ k = p.1 := fun e => h e.symm
      have : Delete (p :: m) k = p :: Delete m k := by simp [Delete, List.filter_cons, h]
      rw [this, Load_cons, if_neg h2, ih]

theorem Load_Delete_ne (m : List (Int × Nat)) {k j : Int} (hkj : k ≠ j) :
    Load (Delete m j) k = Load m k := by
  induction m with
  | nil => rfl
  | cons p m ih =>
    by_cases h : p.1 = j
    · have : Delete (p :: m) j = Delete m j := by simp [Delete, List.filter_cons, h]
      have h2 : ¬ k = p.1 := fun e => hkj (e.trans h)
      rw [this, ih, Load_cons, if_neg h2]
    · have : Delete (p :: m) j = p :: Delete m j := by simp [Delete, List.filter_cons, h]
      rw [this, Load_cons, Load_cons, ih]

theorem Load_Store_self (m : List (Int × Nat)) (k : Int) (el : Nat) :
    Load (Store m k el) k = some el := by
  simp [Store, Load_cons]

theorem Load_Store_ne (m : List (Int × Nat)) {k j : Int} (el : Nat) (hkj : k ≠ j) :
    Load (Store m j el) k = Load m k := by
  simp [Store, Load_cons, hkj, Load_Delete_ne m hkj]

theorem Load_eq_none_iff {m : List (Int × Nat)} {k : Int} :
    Load m k = none ↔ k ∉ m.map Prod.fst := by
  induction m with
  | nil => simp [Load_nil]
  | cons p m ih =>
    rw [Load_cons]
    by_cases h : k = p.1
    · simp [h]
    · simp [h, ih]

theorem Delete_of_Load_none {m : List (Int × Nat)} {k : Int} (h : Load m k = none) :
    Delete m k = m := by
  rw [Load_eq_none_iff] at h
  unfold Delete
  rw [List.filter_eq_self]
  intro p hp
  have : p.1 ≠ k := fun e => h (e ▸ List.mem_map_of_mem Prod.fst hp)
  simpa using this

theorem keys_Delete {m : List (Int × Nat)} (k : Int) (h : (m.map Prod.fst).Nodup) :
    ((Delete m k).map Prod.fst).Nodup := by
  unfold Delete
  exact (List.Sublist.map _ (List.filter_sublist m)).nodup h

theorem mem_of_Load {m : List (Int × Nat)} {k : Int} {el : Nat} (h : Load m k = some el) :
    (k, el) ∈ m := by
  induction m with
  | nil => simp [Load_nil] at h
  | cons p m ih =>
    rw [Load_cons] at h
    by_cases hk : k = p.1
    · rw [if_pos hk] at h
      have : p = (k, el) := by
        obtain ⟨a, b⟩ := p
        simp at h hk
        simp [h, hk]
      simp [this]
    · rw [if_neg hk] at h
      exact List.mem_cons_of_mem _ (ih h)

theorem length_Delete {m : List (Int × Nat)} {k : Int} {el : Nat}
    (hn : (m.map Prod.fst).Nodup) (h : Load m k = some el) :
    (Delete m k).length + 1 = m.length := by
  induction m with
  | nil => simp [Load_nil] at h
  | cons p m ih =>
    rw [List.map_cons, List.nodup_cons] at hn
    rw [Load_cons] at h
    by_cases hk : k = p.1
    · have h1 : Delete (p :: m) k = Delete m k := by simp [Delete, List.filter_cons, hk]
      have h2 : Load m k = none := by
        rw [Load_eq_none_iff, hk]; exact hn.1
      rw [h1, Delete_of_Load_none h2]; simp
    · rw [if_neg hk] at h
      have hk2 : ¬ p.1 = k := fun e => hk e.symm
      have h1 : Delete (p :: m) k = p :: Delete m k := by simp [Delete, List.filter_cons, hk2]
      rw [h1, List.length_cons, ih hn.2 h, List.length_cons]

/-! ## The invariant is kept -/

theorem erase_last {l : List Nat} {e : Nat} (hn : l.Nodup) (h : l.getLast? = some e) :
    l.erase e = l.dropLast := by
  obtain ⟨xs, rfl⟩ : ∃ xs, l = xs ++ [e] := by
    rcases List.eq_nil_or_concat l with rfl | ⟨xs, a, rfl⟩
    · simp at h
    · simp at h; exact ⟨xs, by simp [h]⟩
  have hne : e ∉ xs := by
    intro hm
    have := List.nodup_append.1 hn
    exact this.2.2 hm (List.mem_singleton_self e)
  rw [List.erase_append_right _ hne]
  simp

theorem Inv_New (f : Fetcher) (i cap : Int) : Inv (New f i cap) := by
  constructor <;> simp [New, Load_nil]

theorem Inv_remove {c : impl} (hi : Inv c) {e : Nat} {k : Int} (he : e ∈ c.list)
    (hk : (c.notes e).id = some k) :
    Inv { c with list := Remove c.list e, valMap := Delete c.valMap k } := by
  have hLe : Load c.valMap k = some e := by
    obtain ⟨k1, h1, h2⟩ := hi.indexed e he
    rw [hk] at h1
    cases h1
    exact h2
  constructor
  · exact hi.nodup.erase e
  · intro h hh
    exact hi.bound h (List.mem_of_mem_erase hh)
  · exact keys_Delete k hi.keys
  · intro h hh
    have hh2 := (hi.nodup.mem_erase_iff).1 hh
    obtain ⟨k1, h1, h2⟩ := hi.indexed h hh2.2
    refine ⟨k1, h1, ?_⟩
    have hne : k1 ≠ k := by
      rintro rfl
      rw [hLe] at h2
      exact hh2.1 (Option.some.inj h2).symm
    show Load (Delete c.valMap k) k1 = some h
    rw [Load_Delete_ne _ hne]
    exact h2
  · intro k1 h hl
    have hl : Load (Delete c.valMap k) k1 = some h := hl
    have hne : k1 ≠ k := by
      rintro rfl
      rw [Load_Delete_self] at hl
      cases hl
    rw [Load_Delete_ne _ hne] at hl
    obtain ⟨h1, h2⟩ := hi.listed k1 h hl
    refine ⟨?_, h2⟩
    show h ∈ c.list.erase e
    rw [hi.nodup.mem_erase_iff]
    refine ⟨?_, h1⟩
    rintro rfl
    rw [hk] at h2
    exact hne (Option.some.inj h2).symm
  · show (Delete c.valMap k).length = (c.list.erase e).length
    have h1 := length_Delete hi.keys hLe
    have h2 := List.length_erase_of_mem he
    have h3 : 0 < c.list.length := List.length_pos_of_mem he
    have h4 := hi.size
    omega

theorem Inv_frame {c : impl} (hi : Inv c) (notes1 : Nat → note) (next1 : Nat) (cs : List Int)
    (hn : ∀ h, h < c.next → notes1 h = c.notes h) (hx : c.next ≤ next1) :
    Inv { c with notes := notes1, next := next1, calls := cs } := by
  constructor
  · exact hi.nodup
  · intro h hh
    exact lt_of_lt_of_le (hi.bound h hh) hx
  · exact hi.keys
  · intro h hh
    obtain ⟨k1, h1, h2⟩ := hi.indexed h hh
    exact ⟨k1, by simpa [hn h (hi.bound h hh)] using h1, h2⟩
  · intro k h hl
    obtain ⟨h1, h2⟩ := hi.listed k h hl
    exact ⟨h1, by simpa [hn h (hi.bound h h1)] using h2⟩
  · exact hi.size

theorem Inv_insert {c : impl} (hi : Inv c) {id : Int} (hl : Load c.valMap id = none)
    (t : Int) (v : String) (cs : List Int) :
    Inv { c with
      notes := Function.update c.notes c.next { ts := t, val := v, id := some id },
      next := c.next + 1,
      list := PushFront c.list c.next,
      valMap := Store c.valMap id c.next,
      calls := cs } := by
  have hfresh : c.next ∉ c.list := fun hm => lt_irrefl _ (hi.bound _ hm)
  constructor
  · exact List.nodup_cons.2 ⟨hfresh, hi.nodup⟩
  · intro h hh
    rcases List.mem_cons.1 hh with rfl | hh
    · exact Nat.lt_succ_self _
    · exact Nat.lt_succ_of_lt (hi.bound h hh)
  · show ((Store c.valMap id c.next).map Prod.fst).Nodup
    rw [Store, Delete_of_Load_none hl, List.map_cons, List.nodup_cons]
    exact ⟨Load_eq_none_iff.1 hl, hi.keys⟩
  · intro h hh
    rcases List.mem_cons.1 hh with rfl | hh
    · exact ⟨id, by simp, Load_Store_self _ _ _⟩
    · have hne : h ≠ c.next := fun e => hfresh (e ▸ hh)
      obtain ⟨k1, h1, h2⟩ := hi.indexed h hh
      refine ⟨k1, by simpa [Function.update_noteq hne] using h1, ?_⟩
      have hk : k1 ≠ id := by
        rintro rfl
        rw [hl] at h2
        cases h2
      show Load (Store c.valMap id c.next) k1 = some h
      rw [Load_Store_ne _ _ hk]
      exact h2
  · intro k h hk
    have hk : Load (Store c.valMap id c.next) k = some h := hk
    by_cases hkid : k = id
    · subst hkid
      rw [Load_Store_self] at hk
      cases hk
      exact ⟨List.mem_cons_self _ _, by simp⟩
    · rw [Load_Store_ne _ _ hkid] at hk
      obtain ⟨h1, h2⟩ := hi.listed k h hk
      have hne : h ≠ c.next := fun e => hfresh (e ▸ h1)
      exact ⟨List.mem_cons_of_mem _ h1, by simpa [Function.update_noteq hne] using h2⟩
  · show (Store c.valMap id c.next).length = (c.next :: c.list).length
    rw [Store, Delete_of_Load_none hl]
    simp [hi.size]

theorem Inv_hit {c : impl} (hi : Inv c) (now : Int) (el : Nat) : Inv (hit c now el).2 := by
  have hmem : ∀ h, h ∈ MoveToFront c.list el ↔ h ∈ c.list := by
    intro h
    unfold MoveToFront
    split
    · rename_i hel
      constructor
      · intro hh
        rcases List.mem_cons.1 hh with rfl | hh
        · exact hel
        · exact List.mem_of_mem_erase hh
      · intro hh
        by_cases e : h = el
        · subst e; exact List.mem_cons_self _ _
        · exact List.mem_cons_of_mem _ ((List.mem_erase_of_ne e).2 hh)
    · rfl
  have hid : ∀ h, ((hit c now el).2.notes h).id = (c.notes h).id := by
    intro h
    by_cases e : h = el
    · subst e; simp [hit]
    · simp [hit, Function.update_noteq e]
  constructor
  · show (MoveToFront c.list el).Nodup
    unfold MoveToFront
    split
    · exact List.nodup_cons.2 ⟨fun hm => (hi.nodup.mem_erase_iff.1 hm).1 rfl, hi.nodup.erase el⟩
    · exact hi.nodup
  · intro h hh
    exact hi.bound h ((hmem h).1 hh)
  · exact hi.keys
  · intro h hh
    obtain ⟨k1, h1, h2⟩ := hi.indexed h ((hmem h).1 hh)
    exact ⟨k1, by rw [hid]; exact h1, h2⟩
  · intro k h hl
    obtain ⟨h1, h2⟩ := hi.listed k h hl
    exact ⟨(hmem h).2 h1, by rw [hid]; exact h2⟩
  · show c.valMap.length = (MoveToFront c.list el).length
    unfold MoveToFront
    split
    · rename_i hel
      have h2 := List.length_erase_of_mem hel
      have h3 : 0 < c.list.length := List.length_pos_of_mem hel
      have := hi.size
      simp only [List.length_cons]
      omega
    · exact hi.size

/-! ## `Fetch`, case by case -/

theorem evict_lt {c : impl} (h : (c.list.length : Int) < c.cap) : evict c = some c := by
  unfold evict
  rw [if_neg (not_le.2 h)]

theorem evict_nil {c : impl} (h : c.list = []) : evict c = some c := by
  unfold evict
  split
  · simp [Back, h]
  · rfl

theorem evict_ge {c : impl} {e : Nat} {k : Int} (h : c.cap ≤ (c.list.length : Int))
    (hb : Back c.list = some e) (hk : (c.notes e).id = some k) :
    evict c = some { c with list := Remove c.list e, valMap := Delete c.valMap k } := by
  unfold evict
  rw [if_pos h]
  simp [hb, hk]

theorem Back_mem {l : List Nat} {e : Nat} (h : Back l = some e) : e ∈ l :=
  List.mem_of_getLast?_eq_some h

/-- Under the invariant the eviction never dereferences nil, and it keeps the
invariant. -/
theorem evict_Inv {c : impl} (hi : Inv c) :
    ∃ c1, evict c = some c1 ∧ Inv c1 ∧ c1.notes = c.notes ∧ c1.next = c.next ∧
      c1.fetcher = c.fetcher ∧ c1.cap = c.cap ∧ c1.calls = c.calls ∧
      (∀ h, h ∈ c1.list → h ∈ c.list) ∧
      (∀ k, Load c.valMap k = none → Load c1.valMap k = none) := by
  by_cases hlt : (c.list.length : Int) < c.cap
  · exact ⟨c, evict_lt hlt, hi, rfl, rfl, rfl, rfl, rfl, fun _ h => h, fun _ h => h⟩
  · rcases hb : Back c.list with _ | e
    · have hnil : c.list = [] := by simpa [Back] using hb
      exact ⟨c, evict_nil hnil, hi, rfl, rfl, rfl, rfl, rfl, fun _ h => h, fun _ h => h⟩
    · obtain ⟨k, hk, _⟩ := hi.indexed e (Back_mem hb)
      refine ⟨_, evict_ge (not_lt.1 hlt) hb hk, Inv_remove hi (Back_mem hb) hk,
        rfl, rfl, rfl, rfl, rfl, fun h hh => List.mem_of_mem_erase hh, ?_⟩
      intro k1 hk1
      show Load (Delete c.valMap k) k1 = none
      by_cases e1 : k1 = k
      · rw [e1, Load_Delete_self]
      · rw [Load_Delete_ne _ e1, hk1]

theorem Fetch_hit {c : impl} {id : Int} {el : Nat} (now later : Int)
    (hl : Load c.valMap id = some el) (hr : (c.notes el).id ≠ none) :
    Fetch c now later id = some (hit c now el) := by
  unfold Fetch
  simp only [hl]
  rw [if_pos hr]

theorem Fetch_miss {c c1 : impl} {id : Int} (now later : Int)
    (hl : Load c.valMap id = none) (he : evict c = some c1) :
    Fetch c now later id = some (complete
      { c1 with
          notes := Function.update c1.notes c1.next { ts := now, val := "", id := none },
          next := c1.next + 1,
          list := PushFront c1.list c1.next,
          valMap := Store c1.valMap id c1.next } later c1.next id) := by
  unfold Fetch admission
  simp only [hl, he, Option.map_some']

theorem Fetch_miss_ok {c c1 : impl} {id : Int} (now later : Int)
    (hl : Load c.valMap id = none) (he : evict c = some c1)
    (hf : (c1.fetcher c1.calls id).2 = none) :
    Fetch c now later id = some (((c1.fetcher c1.calls id).1, none),
      { c1 with
          notes := Function.update c1.notes c1.next
            { ts := later, val := (c1.fetcher c1.calls id).1, id := some id },
          next := c1.next + 1,
          list := PushFront c1.list c1.next,
          valMap := Store c1.valMap id c1.next,
          calls := c1.calls ++ [id] }) := by
  rw [Fetch_miss now later hl he]
  unfold complete
  simp [hf]

theorem Fetch_miss_err {c c1 : impl} {id : Int} {err : Error} (now later : Int)
    (hl : Load c.valMap id = none) (he : evict c = some c1)
    (hf : (c1.fetcher c1.calls id).2 = some err) :
    Fetch c now later id = some (("", some err),
      { c1 with
          notes := Function.update c1.notes c1.next { ts := now, val := "", id := none },
          next := c1.next + 1,
          list := c1.list,
          valMap := Delete c1.valMap id,
          calls := c1.calls ++ [id] }) := by
  rw [Fetch_miss now later hl he]
  unfold complete
  simp [hf, Remove, PushFront, Store, Delete]

/-! ## The pass of the reclaimer -/

theorem Prev_not_mem {l : List Nat} {e : Nat} (h : e ∉ l) : Prev l e = none := by
  induction l with
  | nil => rfl
  | cons a l ih =>
    cases l with
    | nil => rfl
    | cons b l =>
      have h1 : a ≠ e := fun x => h (x ▸ List.mem_cons_self _ _)
      have h2 : b ≠ e := fun x => h (x ▸ List.mem_cons_of_mem _ (List.mem_cons_self _ _))
      have h3 : e ∉ b :: l := fun x => h (List.mem_cons_of_mem _ x)
      simp [Prev, h1, h2, ih h3]

theorem Prev_append {xs ys : List Nat} {e : Nat} (hn : (xs ++ e :: ys).Nodup) :
    Prev (xs ++ e :: ys) e = xs.getLast? := by
  induction xs with
  | nil =>
    cases ys with
    | nil => rfl
    | cons b ys => simp [Prev]
  | cons a xs ih =>
    have hn2 : (xs ++ e :: ys).Nodup := (List.nodup_cons.1 hn).2
    have ha : a ≠ e := by
      rintro rfl
      exact (List.nodup_cons.1 hn).1 (by simp)
    cases xs with
    | nil => simp [Prev, ha]
    | cons b xs =>
      have hb : b ≠ e := by
        rintro rfl
        exact (List.nodup_cons.1 hn2).1 (by simp)
      have := ih hn2
      simp only [List.cons_append] at this ⊢
      rw [Prev, if_neg ha, if_neg hb, this]
      simp [List.getLast?_cons_cons]

theorem cleanupLoop_none (now interval : Int) (fuel : Nat) (c : impl) (ts : Option Int) :
    cleanupLoop now interval fuel c ts none = (c, ts) := by
  cases fuel <;> rfl

theorem cleanupLoop_eq_sweep (now interval : Int) (c : impl) (hn : c.list.Nodup) :
    ∀ (xs ys : List Nat) (ts : Option Int) (fuel : Nat), c.list = xs ++ ys →
      xs.length ≤ fuel →
      cleanupLoop now interval fuel c ts xs.getLast? = sweep now interval c xs.reverse ts := by
  intro xs
  induction xs using List.reverseRecOn with
  | nil =>
    intro ys ts fuel _ _
    simp [cleanupLoop_none, sweep]
  | append_singleton xs e ih =>
    intro ys ts fuel hl hf
    obtain ⟨f, rfl⟩ : ∃ f, fuel = f + 1 := by
      refine ⟨fuel - 1, ?_⟩
      simp at hf
      omega
    have hl2 : c.list = xs ++ e :: ys := by simpa using hl
    have hp : Prev c.list e = xs.getLast? := by
      rw [hl2]; exact Prev_append (hl2 ▸ hn)
    have hq : Prev (Remove c.list e) e = none :=
      Prev_not_mem (fun hm => (hn.mem_erase_iff.1 hm).1 rfl)
    have hf2 : xs.length ≤ f := by simp at hf; omega
    have hg : (xs ++ [e]).getLast? = some e := by simp
    have hr : (xs ++ [e]).reverse = e :: xs.reverse := by simp
    rw [hg, hr]
    show cleanupLoop now interval f (cleanupBody now interval c ts e).1
      (cleanupBody now interval c ts e).2.1 (cleanupBody now interval c ts e).2.2 = _
    rw [sweep]
    unfold cleanupBody
    rcases hid : (c.notes e).id with _ | k
    · simp only [hid, hp]
      exact ih (e :: ys) _ f hl2 hf2
    · simp only [hid]
      by_cases hx : now - (c.notes e).ts > interval
      · simp only [if_pos hx, hq, cleanupLoop_none]
      · simp only [if_neg hx, hp]
        exact ih (e :: ys) _ f hl2 hf2

/-- The loop of the reclaimer ends within the fuel `backgroundCleanup` gives
it, and with any larger fuel, and computes the closed form `sweep`. -/
theorem backgroundCleanup_eq_sweep (c : impl) (now interval : Int) (hn : c.list.Nodup) :
    backgroundCleanup c now interval = sweep now interval c c.list.reverse none ∧
    ∀ fuel, c.list.length ≤ fuel →
      cleanupLoop now interval fuel c none (Back c.list) =
        sweep now interval c c.list.reverse none :=
  ⟨cleanupLoop_eq_sweep now interval c hn c.list [] none _ (by simp) le_rfl,
   fun fuel hf => cleanupLoop_eq_sweep now interval c hn c.list [] none fuel (by simp) hf⟩

/-- A pass leaves the cache as it is or removes exactly one element, which is
ready and idle for longer than the interval. -/
theorem sweep_cases (now interval : Int) (c : impl) (rest : List Nat) (ts : Option Int) :
    (sweep now interval c rest ts).1 = c ∨
    ∃ e k, e ∈ rest ∧ (c.notes e).id = some k ∧ now - (c.notes e).ts > interval ∧
      (sweep now interval c rest ts).1 =
        { c with list := Remove c.list e, valMap := Delete c.valMap k } := by
  induction rest generalizing ts with
  | nil => exact Or.inl rfl
  | cons e rest ih =>
    rw [sweep]
    rcases hid : (c.notes e).id with _ | k
    · simp only []
      rcases ih (some ((c.notes e).ts + interval)) with h | ⟨e1, k1, h1, h2, h3, h4⟩
      · exact Or.inl h
      · exact Or.inr ⟨e1, k1, List.mem_cons_of_mem _ h1, h2, h3, h4⟩
    · simp only []
      by_cases hx : now - (c.notes e).ts > interval
      · rw [if_pos hx]
        exact Or.inr ⟨e, k, List.mem_cons_self _ _, hid, hx, rfl⟩
      · rw [if_neg hx]
        rcases ih (some ((c.notes e).ts + interval)) with h | ⟨e1, k1, h1, h2, h3, h4⟩
        · exact Or.inl h
        · exact Or.inr ⟨e1, k1, List.mem_cons_of_mem _ h1, h2, h3, h4⟩

theorem backgroundCleanup_cases (c : impl) (now interval : Int) (hn : c.list.Nodup) :
    (backgroundCleanup c now interval).1 = c ∨
    ∃ e k, e ∈ c.list ∧ (c.notes e).id = some k ∧ now - (c.notes e).ts > interval ∧
      (backgroundCleanup c now interval).1 =
        { c with list := Remove c.list e, valMap := Delete c.valMap k } := by
  rw [(backgroundCleanup_eq_sweep c now interval hn).1]
  rcases sweep_cases now interval c c.list.reverse none with h | ⟨e, k, h1, h2, h3, h4⟩
  · exact Or.inl h
  · exact Or.inr ⟨e, k, List.mem_reverse.1 h1, h2, h3, h4⟩

theorem backgroundCleanup_Inv {c : impl} (hi : Inv c) (now interval : Int) :
    Inv (backgroundCleanup c now interval).1 ∧
    (backgroundCleanup c now interval).1.cap = c.cap ∧
    (backgroundCleanup c now interval).1.list.length ≤ c.list.length := by
  rcases backgroundCleanup_cases c now interval hi.nodup with h | ⟨e, k, h1, h2, _, h4⟩
  · rw [h]; exact ⟨hi, rfl, le_rfl⟩
  · rw [h4]
    refine ⟨Inv_remove hi h1 h2, rfl, ?_⟩
    show (c.list.erase e).length ≤ c.list.length
    rw [List.length_erase_of_mem h1]
    exact Nat.sub_le _ _

/-- Under the invariant `Fetch` returns (no nil dereference), keeps the
invariant, and keeps the list within a capacity of at least one. -/
theorem Fetch_Inv {c : impl} (hi : Inv c) (now later : Int) (id : Int) :
    ∃ r c1, Fetch c now later id = some (r, c1) ∧ Inv c1 ∧ c1.cap = c.cap ∧
      (1 ≤ c.cap → (c.list.length : Int) ≤ c.cap → (c1.list.length : Int) ≤ c1.cap) := by
  rcases hl : Load c.valMap id with _ | el
  · obtain ⟨c1, he, hi1, hno, hnx, hfe, hcap, hcalls, hsub, hload⟩ := evict_Inv hi
    have hlen : 1 ≤ c.cap → (c.list.length : Int) ≤ c.cap → (c1.list.length : Int) < c.cap := by
      intro h1 h2
      by_cases hlt : (c.list.length : Int) < c.cap
      · rw [evict_lt hlt] at he
        cases he
        exact hlt
      · rcases hb : Back c.list with _ | e
        · have hnil : c.list = [] := by simpa [Back] using hb
          rw [evict_nil hnil] at he
          cases he
          rw [hnil]
          simp
          omega
        · obtain ⟨k, hk, _⟩ := hi.indexed e (Back_mem hb)
          rw [evict_ge (not_lt.1 hlt) hb hk] at he
          cases he
          show (((c.list.erase e).length : Nat) : Int) < c.cap
          rw [List.length_erase_of_mem (Back_mem hb)]
          have : 0 < c.list.length := List.length_pos_of_mem (Back_mem hb)
          omega
    rcases hf : (c1.fetcher c1.calls id).2 with _ | err
    · refine ⟨_, _, Fetch_miss_ok now later hl he hf, Inv_insert hi1 (hload id hl) _ _ _, hcap, ?_⟩
      intro h1 h2
      have := hlen h1 h2
      show (((c1.next :: c1.list).length : Nat) : Int) ≤ c1.cap
      rw [hcap]
      simp
      omega
    · refine ⟨_, _, Fetch_miss_err now later hl he hf, ?_, hcap, ?_⟩
      · have h0 := Inv_frame hi1 (Function.update c1.notes c1.next { ts := now, val := "", id := none })
          (c1.next + 1) (c1.calls ++ [id])
          (fun h hh => Function.update_noteq (Nat.ne_of_lt hh) _ _) (Nat.le_succ _)
        rw [Delete_of_Load_none (hload id hl)]
        exact h0
      · intro h1 h2
        have := hlen h1 h2
        show ((c1.list.length : Nat) : Int) ≤ c1.cap
        rw [hcap]
        omega
  · have hr : (c.notes el).id ≠ none := by
      rw [(hi.listed id el hl).2]; simp
    refine ⟨_, _, Fetch_hit now later hl hr, Inv_hit hi now el, rfl, ?_⟩
    intro _ h2
    have h3 : c.valMap.length = (MoveToFront c.list el).length := (Inv_hit hi now el).size
    rw [← hi.size] at h2
    show (((MoveToFront c.list el).length : Nat) : Int) ≤ c.cap
    rw [← h3]
    exact h2

/-! ## Capacity -/

theorem run_Inv (interval : Int) (ops : List Op) :
    ∀ c : impl, Inv c → 1 ≤ c.cap → (c.list.length : Int) ≤ c.cap →
      ∃ c1, run interval c ops = some c1 ∧ Inv c1 ∧ c1.cap = c.cap ∧
        (c1.list.length : Int) ≤ c1.cap := by
  induction ops with
  | nil => intro c hi _ hl; exact ⟨c, rfl, hi, rfl, hl⟩
  | cons op ops ih =>
    intro c hi hc hl
    cases op with
    | fetch id now later =>
      obtain ⟨r, c1, hf, hi1, hcap1, hlen1⟩ := Fetch_Inv hi now later id
      obtain ⟨c2, h2, hi2, hcap2, hlen2⟩ := ih c1 hi1 (hcap1 ▸ hc) (hlen1 hc hl)
      refine ⟨c2, ?_, hi2, hcap2.trans hcap1, hlen2⟩
      simp [run, step, hf, h2]
    | cleanup now =>
      obtain ⟨hi1, hcap1, hlen1⟩ := backgroundCleanup_Inv hi now interval
      have hl1 : ((backgroundCleanup c now interval).1.list.length : Int) ≤
          (backgroundCleanup c now interval).1.cap := by
        rw [hcap1]
        have : ((backgroundCleanup c now interval).1.list.length : Int) ≤ c.list.length := by
          exact_mod_cast hlen1
        omega
      obtain ⟨c2, h2, hi2, hcap2, hlen2⟩ := ih _ hi1 (hcap1 ▸ hc) hl1
      refine ⟨c2, ?_, hi2, hcap2.trans hcap1, hlen2⟩
      simp [run, step, h2]

/-- C1. For every capacity of at least one, every source and every sequence of
`Fetch` calls and reclaimer passes run one at a time on the cache `New` builds,
after each call of the sequence (after its first `n` calls, for every `n`) the
run has returned, and the list and the map hold the same number of entries,
which is at most the capacity. -/
theorem C1_entries_at_most_capacity (fetcher : Fetcher) (interval cap : Int) (hcap : 1 ≤ cap)
    (ops : List Op) (n : Nat) :
    ∃ c, run interval (New fetcher interval cap) (ops.take n) = some c ∧
      (c.list.length : Int) ≤ cap ∧ (c.valMap.length : Int) ≤ cap ∧
      c.valMap.length = c.list.length := by
  obtain ⟨c, h1, h2, h3, h4⟩ := run_Inv interval (ops.take n) (New fetcher interval cap)
    (Inv_New fetcher interval cap) hcap (by simpa [New] using le_trans (by decide) hcap)
  have h5 : c.cap = cap := h3
  rw [h5] at h4
  exact ⟨c, h1, h4, by rw [h2.size]; exact h4, h2.size⟩

/-- C1 at capacity 2: four misses and a pass of the reclaimer. -/
theorem C1_entries_at_most_capacity_witness :
    ∃ c, run 5 (New (fun _ i => (toString i, none)) 5 2)
        ([Op.fetch 0 0 1, Op.fetch 1 2 3, Op.fetch 2 4 5, Op.cleanup 20, Op.fetch 3 21 22].take 4)
          = some c ∧
      (c.list.length : Int) ≤ 2 ∧ (c.valMap.length : Int) ≤ 2 ∧
      c.valMap.length = c.list.length :=
  C1_entries_at_most_capacity (fun _ i => (toString i, none)) 5 2 (by decide) _ 4

/-! ## Repeated calls -/

theorem Load_Delete_cases (m : List (Int × Nat)) (k j : Int) :
    Load (Delete m j) k = Load m k ∨ Load (Delete m j) k = none := by
  by_cases h : k = j
  · right; rw [h, Load_Delete_self]
  · left; exact Load_Delete_ne m h

theorem evict_frame {c c1 : impl} (he : evict c = some c1) :
    c1.notes = c.notes ∧ c1.next = c.next ∧ c1.calls = c.calls ∧ c1.fetcher = c.fetcher ∧
    c1.cap = c.cap ∧
    ∀ k, Load c1.valMap k = Load c.valMap k ∨ Load c1.valMap k = none := by
  unfold evict at he
  split at he
  · split at he
    · cases he; exact ⟨rfl, rfl, rfl, rfl, rfl, fun _ => Or.inl rfl⟩
    · split at he
      · cases he
      · cases he
        exact ⟨rfl, rfl, rfl, rfl, rfl, fun k => Load_Delete_cases _ _ _⟩
  · cases he; exact ⟨rfl, rfl, rfl, rfl, rfl, fun _ => Or.inl rfl⟩

theorem cleanupLoop_frame (now interval : Int) (fuel : Nat) :
    ∀ (c : impl) (ts : Option Int) (e : Option Nat),
      (cleanupLoop now interval fuel c ts e).1.notes = c.notes ∧
      (cleanupLoop now interval fuel c ts e).1.next = c.next ∧
      (cleanupLoop now interval fuel c ts e).1.calls = c.calls ∧
      ∀ k, Load (cleanupLoop now interval fuel c ts e).1.valMap k = Load c.valMap k ∨
        Load (cleanupLoop now interval fuel c ts e).1.valMap k = none := by
  induction fuel with
  | zero => intro c ts e; exact ⟨rfl, rfl, rfl, fun _ => Or.inl rfl⟩
  | succ fuel ih =>
    intro c ts e
    cases e with
    | none => exact ⟨rfl, rfl, rfl, fun _ => Or.inl rfl⟩
    | some e =>
      show (cleanupLoop now interval fuel (cleanupBody now interval c ts e).1
        (cleanupBody now interval c ts e).2.1 (cleanupBody now interval c ts e).2.2).1.notes = _ ∧ _
      obtain ⟨h1, h2, h3, h4⟩ := ih (cleanupBody now interval c ts e).1
        (cleanupBody now interval c ts e).2.1 (cleanupBody now interval c ts e).2.2
      have hb : (cleanupBody now interval c ts e).1.notes = c.notes ∧
          (cleanupBody now interval c ts e).1.next = c.next ∧
          (cleanupBody now interval c ts e).1.calls = c.calls ∧
          ∀ k, Load (cleanupBody now interval c ts e).1.valMap k = Load c.valMap k ∨
            Load (cleanupBody now interval c ts e).1.valMap k = none := by
        unfold cleanupBody
        dsimp only
        rcases hid : (c.notes e).id with _ | k0
        · exact ⟨rfl, rfl, rfl, fun _ => Or.inl rfl⟩
        · dsimp only
          by_cases hx : now - (c.notes e).ts > interval
          · rw [if_pos hx]
            exact ⟨rfl, rfl, rfl, fun k => Load_Delete_cases _ _ _⟩
          · rw [if_neg hx]
            exact ⟨rfl, rfl, rfl, fun _ => Or.inl rfl⟩
      refine ⟨h1.trans hb.1, h2.trans hb.2.1, h3.trans hb.2.2.1, fun k => ?_⟩
      rcases h4 k with h | h
      · rcases hb.2.2.2 k with h5 | h5
        · exact Or.inl (h.trans h5)
        · exact Or.inr (h.trans h5)
      · exact Or.inr h

/-- A hit: the stored value, a nil error, no source call, and the entry stays
cached on the same element. -/
theorem Fetch_CachedAt {c : impl} {k : Int} {v : String} {el : Nat} (h : CachedAt c k v el)
    (now later : Int) :
    ∃ c1, Fetch c now later k = some ((v, none), c1) ∧ c1.calls = c.calls ∧
      CachedAt c1 k v el := by
  obtain ⟨h1, h2, h3, h4⟩ := h
  refine ⟨(hit c now el).2, ?_, rfl, h1, ?_, ?_, h4⟩
  · rw [Fetch_hit now later h1 h2]; simp [hit, h3]
  · simpa [hit] using h2
  · simpa [hit] using h3

/-- A `Fetch` of any key that leaves `k` in the map leaves its entry as it is. -/
theorem Fetch_keeps {c c1 : impl} {k : Int} {v : String} {el : Nat} (h : CachedAt c k v el)
    {now later j : Int} {r : Result} (hf : Fetch c now later j = some (r, c1))
    (hk : Load c1.valMap k ≠ none) : CachedAt c1 k v el := by
  obtain ⟨h1, h2, h3, h4⟩ := h
  rcases hl : Load c.valMap j with _ | elj
  · have hjk : k ≠ j := by rintro rfl; rw [hl] at h1; cases h1
    rcases he : evict c with _ | c0
    · simp [Fetch, admission, hl, he] at hf
    · obtain ⟨f1, f2, f3, f4, f5, f6⟩ := evict_frame he
      have hne : el ≠ c0.next := by rw [f2]; exact Nat.ne_of_lt h4
      rw [Fetch_miss now later hl he] at hf
      unfold complete at hf
      simp only [Function.update_same] at hf
      rcases hq : (c0.fetcher c0.calls j).2 with _ | err
      · simp only [hq] at hf
        cases hf
        have hL : Load (Store c0.valMap j c0.next) k = Load c0.valMap k := Load_Store_ne _ _ hjk
        have hk2 : Load (Store c0.valMap j c0.next) k ≠ none := hk
        rw [hL] at hk2
        have hL2 : Load c0.valMap k = some el := by
          rcases f6 k with h | h
          · rw [h, h1]
          · exact absurd h hk2
        refine ⟨hL.trans hL2, ?_, ?_, ?_⟩
        · simpa [Function.update_noteq hne, f1] using h2
        · simpa [Function.update_noteq hne, f1] using h3
        · show el < c0.next + 1
          rw [f2]; exact Nat.lt_succ_of_lt h4
      · simp only [hq] at hf
        cases hf
        have hL : Load (Delete (Store c0.valMap j c0.next) j) k = Load c0.valMap k := by
          rw [Load_Delete_ne _ hjk, Load_Store_ne _ _ hjk]
        have hk2 : Load (Delete (Store c0.valMap j c0.next) j) k ≠ none := hk
        rw [hL] at hk2
        have hL2 : Load c0.valMap k = some el := by
          rcases f6 k with h | h
          · rw [h, h1]
          · exact absurd h hk2
        refine ⟨hL.trans hL2, ?_, ?_, ?_⟩
        · simpa [Function.update_noteq hne, f1] using h2
        · simpa [Function.update_noteq hne, f1] using h3
        · show el < c0.next + 1
          rw [f2]; exact Nat.lt_succ_of_lt h4
  · by_cases hr : (c.notes elj).id ≠ none
    · rw [Fetch_hit now later hl hr] at hf
      cases hf
      refine ⟨h1, ?_, ?_, h4⟩
      · by_cases e : el = elj
        · subst e; simpa [hit] using h2
        · simpa [hit, Function.update_noteq e] using h2
      · by_cases e : el = elj
        · subst e; simpa [hit] using h3
        · simpa [hit, Function.update_noteq e] using h3
    · have hr2 : (c.notes elj).id = none := not_not.1 hr
      have hne : el ≠ elj := by rintro rfl; exact h2 hr2
      have hjk : k ≠ j := by
        rintro rfl
        rw [hl] at h1
        exact hne (Option.some.inj h1).symm
      simp only [Fetch, hl, if_neg hr, admission, Option.map_some'] at hf
      unfold complete at hf
      simp only [hr2] at hf
      rcases hq : (c.fetcher c.calls j).2 with _ | err
      · simp only [hq] at hf
        cases hf
        refine ⟨h1, ?_, ?_, h4⟩
        · simpa [Function.update_noteq hne] using h2
        · simpa [Function.update_noteq hne] using h3
      · simp only [hq] at hf
        cases hf
        exact ⟨(Load_Delete_ne _ hjk).trans h1, h2, h3, h4⟩

theorem step_keeps {c c1 : impl} {k : Int} {v : String} {el : Nat} (h : CachedAt c k v el)
    {interval : Int} {op : Op} (hs : step interval c op = some c1)
    (hk : Load c1.valMap k ≠ none) : CachedAt c1 k v el := by
  cases op with
  | fetch j now later =>
    simp only [step, Option.map_eq_some'] at hs
    obtain ⟨⟨r, c2⟩, hf, rfl⟩ := hs
    exact Fetch_keeps h hf hk
  | cleanup now =>
    simp only [step, Option.some.injEq] at hs
    subst hs
    obtain ⟨f1, f2, _, f4⟩ := cleanupLoop_frame now interval c.list.length c none (Back c.list)
    obtain ⟨h1, h2, h3, h4⟩ := h
    have hL : Load (backgroundCleanup c now interval).1.valMap k = some el := by
      rcases f4 k with h | h
      · exact h.trans h1
      · exact absurd h hk
    refine ⟨hL, ?_, ?_, ?_⟩
    · show ((backgroundCleanup c now interval).1.notes el).id ≠ none
      unfold backgroundCleanup; rw [f1]; exact h2
    · show ((backgroundCleanup c now interval).1.notes el).val = v
      unfold backgroundCleanup; rw [f1]; exact h3
    · show el < (backgroundCleanup c now interval).1.next
      unfold backgroundCleanup; rw [f2]; exact h4

/-- A `Fetch` that returns `(v, nil)` leaves `k` cached with value `v`, and has
invoked the source at most once, exactly once when `k` was not in the map. -/
theorem Fetch_ok_CachedAt {c c1 : impl} (hv : ∀ p ∈ c.valMap, p.2 < c.next) {k now later : Int}
    {v : String} (hf : Fetch c now later k = some ((v, none), c1)) :
    (∃ el, CachedAt c1 k v el) ∧ (c1.calls = c.calls ∨ c1.calls = c.calls ++ [k]) ∧
    (Load c.valMap k = none → c1.calls = c.calls ++ [k]) := by
  rcases hl : Load c.valMap k with _ | el
  · rcases he : evict c with _ | c0
    · simp [Fetch, admission, hl, he] at hf
    · obtain ⟨f1, f2, f3, f4, f5, f6⟩ := evict_frame he
      rcases hq : (c0.fetcher c0.calls k).2 with _ | err
      · rw [Fetch_miss_ok now later hl he hq] at hf
        simp only [Option.some.injEq, Prod.mk.injEq, and_true] at hf
        obtain ⟨hv1, rfl⟩ := hf
        refine ⟨⟨c0.next, Load_Store_self _ _ _, by simp, by simpa using hv1,
          Nat.lt_succ_self _⟩, Or.inr ?_, fun _ => ?_⟩
        · show c0.calls ++ [k] = c.calls ++ [k]
          rw [f3]
        · show c0.calls ++ [k] = c.calls ++ [k]
          rw [f3]
      · rw [Fetch_miss_err now later hl he hq] at hf
        simp at hf
  · have hlt : el < c.next := hv (k, el) (mem_of_Load hl)
    by_cases hr : (c.notes el).id ≠ none
    · rw [Fetch_hit now later hl hr] at hf
      simp only [hit, Option.some.injEq, Prod.mk.injEq, and_true] at hf
      obtain ⟨hv1, rfl⟩ := hf
      exact ⟨⟨el, hl, by simpa using hr, by simpa using hv1, hlt⟩, Or.inl rfl, fun h => by cases h⟩
    · have hr2 : (c.notes el).id = none := not_not.1 hr
      simp only [Fetch, hl, if_neg hr, admission, Option.map_some'] at hf
      unfold complete at hf
      simp only [hr2] at hf
      rcases hq : (c.fetcher c.calls k).2 with _ | err
      · simp only [hq, Option.some.injEq, Prod.mk.injEq, and_true] at hf
        obtain ⟨hv1, rfl⟩ := hf
        exact ⟨⟨el, hl, by simp, by simpa using hv1, hlt⟩, Or.inr rfl, fun h => by cases h⟩
      · simp [hq] at hf

theorem run_keeps (interval : Int) {k : Int} {v : String} {el : Nat} (ops : List Op) :
    ∀ c c2 : impl, CachedAt c k v el → run interval c ops = some c2 →
      (∀ n c3, run interval c (ops.take n) = some c3 → Load c3.valMap k ≠ none) →
      CachedAt c2 k v el := by
  induction ops with
  | nil =>
    intro c c2 h hr _
    simp only [run, Option.some.injEq] at hr
    exact hr ▸ h
  | cons op ops ih =>
    intro c c2 h hr hk
    rcases hs : step interval c op with _ | c1
    · simp [run, hs] at hr
    · have hr1 : run interval c1 ops = some c2 := by simpa [run, hs] using hr
      have h1 : CachedAt c1 k v el :=
        step_keeps h hs (hk 1 c1 (by simp [run, hs]))
      refine ih c1 c2 h1 hr1 (fun n c3 h3 => hk (n + 1) c3 ?_)
      simpa [run, hs] using h3

theorem fetchAll_CachedAt {k : Int} {v : String} {el : Nat} (qs : List (Int × Int)) :
    ∀ c : impl, CachedAt c k v el →
      ∃ c2, fetchAll c (qs.map fun t => (k, t.1, t.2)) = some (qs.map fun _ => (v, none), c2) ∧
        c2.calls = c.calls := by
  induction qs with
  | nil => intro c _; exact ⟨c, rfl, rfl⟩
  | cons q qs ih =>
    intro c h
    obtain ⟨c1, h1, h2, h3⟩ := Fetch_CachedAt h q.1 q.2
    obtain ⟨c2, h4, h5⟩ := ih c1 h3
    exact ⟨c2, by simp [fetchAll, h1, h4], h5.trans h2⟩

/-- C2. On a cache whose map holds allocated elements only, once a `Fetch(k)`
has returned `(v, nil)` (having invoked the source at most once, and exactly
once when `k` was not in the map), then after any further operations that each
leave `k` in the map (no eviction, no removal by the reclaimer, no failure
path removing it) a `Fetch(k)` returns `(v, nil)` without invoking the source;
in particular every run of back-to-back `Fetch(k)` calls returns `(v, nil)` each
time with no further source call. -/
theorem C2_repeated_fetch_hits (interval : Int) (c : impl)
    (hv : ∀ p ∈ c.valMap, p.2 < c.next) (k now later : Int) (v : String)
    (hf : (Fetch c now later k).map Prod.fst = some (v, none)) :
    ∃ c1, Fetch c now later k = some ((v, none), c1) ∧
      (c1.calls = c.calls ∨ c1.calls = c.calls ++ [k]) ∧
      (Load c.valMap k = none → c1.calls = c.calls ++ [k]) ∧
      (∀ ops c2, run interval c1 ops = some c2 →
        (∀ n c3, run interval c1 (ops.take n) = some c3 → Load c3.valMap k ≠ none) →
        ∀ t1 t2, ∃ c4, Fetch c2 t1 t2 k = some ((v, none), c4) ∧ c4.calls = c2.calls) ∧
      (∀ qs : List (Int × Int), ∃ c2,
        fetchAll c1 (qs.map fun t => (k, t.1, t.2)) = some (qs.map fun _ => (v, none), c2) ∧
        c2.calls = c1.calls) := by
  rcases hF : Fetch c now later k with _ | ⟨r, c1⟩
  · simp [hF] at hf
  · have hr : r = (v, none) := by simpa [hF] using hf
    subst hr
    obtain ⟨⟨el, hc⟩, h2, h3⟩ := Fetch_ok_CachedAt hv hF
    refine ⟨c1, rfl, h2, h3, ?_, fun qs => fetchAll_CachedAt qs c1 hc⟩
    intro ops c2 hrun hk t1 t2
    obtain ⟨c4, h4, h5, _⟩ := Fetch_CachedAt (run_keeps interval ops c1 c2 hc hrun hk) t1 t2
    exact ⟨c4, h4, h5⟩

/-- C2 on the cache of `Test_RepeatedFetch`: the first `Fetch(0)` invokes the
source, the next two do not. -/
theorem C2_repeated_fetch_hits_witness :
    (∀ p ∈ (New testFetcher 100 1000).valMap, p.2 < (New testFetcher 100 1000).next) ∧
    (Fetch (New testFetcher 100 1000) 0 1 0).map Prod.fst = some ("test0", none) ∧
    ∃ c1, Fetch (New testFetcher 100 1000) 0 1 0 = some (("test0", none), c1) ∧
      (Load (New testFetcher 100 1000).valMap 0 = none → c1.calls = [] ++ [0]) ∧
      ∃ c2, fetchAll c1 ([(5, 6), (10, 11)].map fun t => (0, t.1, t.2)) =
          some ([(5, 6), (10, 11)].map fun _ => ("test0", none), c2) ∧
        c2.calls = c1.calls :=
  ⟨by simp [New], by decide,
    (C2_repeated_fetch_hits 100 (New testFetcher 100 1000) (by simp [New]) 0 0 1 "test0"
      (by decide)).imp fun _ h => ⟨h.1, h.2.2.1, h.2.2.2.2 [(5, 6), (10, 11)]⟩⟩

/-! ## Misses: failure, success, eviction -/

/-- A miss under the invariant: the source is invoked once, with `k`, and its
answer decides the result. -/
theorem Fetch_absent {c : impl} (hi : Inv c) {k : Int} (hl : Load c.valMap k = none)
    (now later : Int) :
    ∃ c1, Fetch c now later k =
        some ((if (c.fetcher c.calls k).2 = none then (c.fetcher c.calls k).1 else "",
          (c.fetcher c.calls k).2), c1) ∧
      c1.calls = c.calls ++ [k] ∧ c1.fetcher = c.fetcher ∧ Inv c1 := by
  obtain ⟨c0, he, hi0, hno, hnx, hfe, hcap, hcalls, hsub, hload⟩ := evict_Inv hi
  obtain ⟨r, c1, hF, hi1, _, _⟩ := Fetch_Inv hi now later k
  have e1 : c.fetcher c.calls k = c0.fetcher c0.calls k := by rw [hfe, hcalls]
  rw [e1, ← hcalls, ← hfe]
  rcases hq : (c0.fetcher c0.calls k).2 with _ | err
  · have h := Fetch_miss_ok now later hl he hq
    rw [hF] at h
    cases h
    refine ⟨_, ?_, ?_, ?_, hi1⟩
    · rw [hF]; simp [hq]
    · rfl
    · rfl
  · have h := Fetch_miss_err now later hl he hq
    rw [hF] at h
    cases h
    refine ⟨_, ?_, ?_, ?_, hi1⟩
    · rw [hF]; simp [hq]
    · rfl
    · rfl

/-- C3. On a cache that satisfies the invariant of the data model and does not
hold `k`, when the source answers `Fetch(k)` with the error `e`, the call
returns the empty string with exactly `e` after one source call, `k` is then in
neither the map nor the list, and the next `Fetch(k)` invokes the source again
(with the failed call in its log) and returns its error, with its value when
the error is nil and the empty string otherwise. -/
theorem C3_error_not_cached (c : impl) (hi : Inv c) (k now later : Int) (e : Error)
    (hl : Load c.valMap k = none) (he : (c.fetcher c.calls k).2 = some e) :
    ∃ c1, Fetch c now later k = some (("", some e), c1) ∧
      c1.calls = c.calls ++ [k] ∧
      Load c1.valMap k = none ∧
      (∀ h ∈ c1.list, (c1.notes h).id ≠ some k) ∧
      ∀ t1 t2, ∃ res c2, Fetch c1 t1 t2 k = some (res, c2) ∧
        c2.calls = c1.calls ++ [k] ∧
        res.2 = (c.fetcher (c.calls ++ [k]) k).2 ∧
        (res.2 = none → res.1 = (c.fetcher (c.calls ++ [k]) k).1) ∧
        (res.2 ≠ none → res.1 = "") := by
  obtain ⟨c0, hev, hi0, hno, hnx, hfe, hcap, hcalls, hsub, hload⟩ := evict_Inv hi
  have hq : (c0.fetcher c0.calls k).2 = some e := by rw [hfe, hcalls]; exact he
  have hF := Fetch_miss_err now later hl hev hq
  obtain ⟨r, c1, hF1, hi1, _, _⟩ := Fetch_Inv hi now later k
  have hL1 : Load (Delete c0.valMap k) k = none := Load_Delete_self _ _
  rw [hF] at hF1
  cases hF1
  refine ⟨_, hF, ?_, hL1, ?_, ?_⟩
  · show c0.calls ++ [k] = c.calls ++ [k]
    rw [hcalls]
  · intro h hh
    have hh : h ∈ c0.list := hh
    have hne : h ≠ c0.next := Nat.ne_of_lt (hi0.bound h hh)
    obtain ⟨k1, h1, h2⟩ := hi0.indexed h hh
    show ((Function.update c0.notes c0.next _) h).id ≠ some k
    rw [Function.update_noteq hne, h1]
    intro hk
    cases hk
    rw [hload k hl] at h2
    cases h2
  · intro t1 t2
    obtain ⟨c2, h1, h2, _, _⟩ := Fetch_absent hi1 hL1 t1 t2
    refine ⟨_, c2, h1, h2, ?_, ?_, ?_⟩
    · show (c0.fetcher (c0.calls ++ [k]) k).2 = _
      rw [hfe, hcalls]
    · intro hn
      have hn : (c0.fetcher (c0.calls ++ [k]) k).2 = none := hn
      show (if (c0.fetcher (c0.calls ++ [k]) k).2 = none then _ else _) = _
      rw [if_pos hn, hfe, hcalls]
    · intro hn
      have hn : (c0.fetcher (c0.calls ++ [k]) k).2 ≠ none := hn
      show (if (c0.fetcher (c0.calls ++ [k]) k).2 = none then _ else _) = _
      rw [if_neg hn]

/-- C3 on the cache of `Test_ErrorHandling`: the first `Fetch(0)` fails and
leaves nothing behind, the second invokes the source again. -/
theorem C3_error_not_cached_witness :
    Inv (New flakyFetcher 1000 1000) ∧
    Load (New flakyFetcher 1000 1000).valMap 0 = none ∧
    (flakyFetcher [] 0).2 = some "error" ∧
    ∃ c1, Fetch (New flakyFetcher 1000 1000) 0 1 0 = some (("", some "error"), c1) ∧
      c1.calls = [0] ∧
      Load c1.valMap 0 = none ∧
      (∀ h ∈ c1.list, (c1.notes h).id ≠ some 0) ∧
      ∀ t1 t2, ∃ res c2, Fetch c1 t1 t2 0 = some (res, c2) ∧
        c2.calls = c1.calls ++ [0] ∧
        res.2 = (flakyFetcher [0] 0).2 ∧
        (res.2 = none → res.1 = (flakyFetcher [0] 0).1) ∧
        (res.2 ≠ none → res.1 = "") :=
  ⟨Inv_New _ _ _, rfl, by decide,
    C3_error_not_cached (New flakyFetcher 1000 1000) (Inv_New _ _ _) 0 0 1 "error" rfl
      (by decide)⟩

/-- C4. On a cache that satisfies the invariant of the data model and does not
hold `k`, when the source answers `Fetch(k)` with `(v, nil)`, for any string
`v`, the call returns `(v, nil)`, the source has been invoked once, with `k`,
the element of `k` is at the front of the list and in the map, ready with value
`v`, and a following `Fetch(k)` returns `(v, nil)` without a source call. -/
theorem C4_success_is_cached (c : impl) (hi : Inv c) (k now later : Int) (v : String)
    (hl : Load c.valMap k = none) (hs : c.fetcher c.calls k = (v, none)) :
    ∃ c1 el, Fetch c now later k = some ((v, none), c1) ∧
      c1.calls = c.calls ++ [k] ∧
      c1.list.head? = some el ∧
      Load c1.valMap k = some el ∧
      c1.notes el = { ts := later, val := v, id := some k } ∧
      ∀ t1 t2, ∃ c2, Fetch c1 t1 t2 k = some ((v, none), c2) ∧ c2.calls = c1.calls := by
  obtain ⟨c0, hev, hi0, hno, hnx, hfe, hcap, hcalls, hsub, hload⟩ := evict_Inv hi
  have hq : c0.fetcher c0.calls k = (v, none) := by rw [hfe, hcalls]; exact hs
  have hq2 : (c0.fetcher c0.calls k).2 = none := by rw [hq]
  have hF := Fetch_miss_ok now later hl hev hq2
  rw [hq] at hF
  refine ⟨_, c0.next, hF, ?_, rfl, Load_Store_self _ _ _, by simp, ?_⟩
  · show c0.calls ++ [k] = c.calls ++ [k]
    rw [hcalls]
  · intro t1 t2
    have hc : CachedAt
        { c0 with
          notes := Function.update c0.notes c0.next { ts := later, val := v, id := some k },
          next := c0.next + 1,
          list := PushFront c0.list c0.next,
          valMap := Store c0.valMap k c0.next,
          calls := c0.calls ++ [k] } k v c0.next :=
      ⟨Load_Store_self _ _ _, by simp, by simp, Nat.lt_succ_self _⟩
    obtain ⟨c2, h1, h2, _⟩ := Fetch_CachedAt hc t1 t2
    exact ⟨c2, h1, h2⟩

/-- C4 with a source that answers the empty string: the empty value is cached
like any other. -/
theorem C4_success_is_cached_witness :
    Inv (New (fun _ _ => ("", none)) 100 1000) ∧
    Load (New (fun _ _ => ("", none)) 100 1000).valMap 7 = none ∧
    ∃ c1 el, Fetch (New (fun _ _ => ("", none)) 100 1000) 0 1 7 = some (("", none), c1) ∧
      c1.calls = [7] ∧
      c1.list.head? = some el ∧
      Load c1.valMap 7 = some el ∧
      c1.notes el = { ts := 1, val := "", id := some 7 } ∧
      ∀ t1 t2, ∃ c2, Fetch c1 t1 t2 7 = some (("", none), c2) ∧ c2.calls = c1.calls :=
  ⟨Inv_New _ _ _, rfl,
    C4_success_is_cached (New (fun _ _ => ("", none)) 100 1000) (Inv_New _ _ _) 7 0 1 "" rfl rfl⟩

theorem admission_miss {c c1 : impl} {id : Int} (now : Int)
    (hl : Load c.valMap id = none) (he : evict c = some c1) :
    admission c now id = some
      ({ c1 with
          notes := Function.update c1.notes c1.next { ts := now, val := "", id := none },
          next := c1.next + 1,
          list := PushFront c1.list c1.next,
          valMap := Store c1.valMap id c1.next }, c1.next) := by
  unfold admission
  simp only [hl, he, Option.map_some']

theorem complete_ok_frame (c : impl) (later : Int) (el : Nat) (id : Int)
    (hs : (c.fetcher c.calls id).2 = none) :
    (complete c later el id).2.list = c.list ∧ (complete c later el id).2.valMap = c.valMap ∧
    ∀ h, h ≠ el → (complete c later el id).2.notes h = c.notes h := by
  unfold complete
  rcases hid : (c.notes el).id with _ | k
  · refine ⟨?_, ?_, fun h hh => ?_⟩
    · simp only [hs]
    · simp only [hs]
    · simp only [hs]
      exact Function.update_noteq hh _ _
  · exact ⟨rfl, rfl, fun _ _ => rfl⟩

/-- C5. A `Fetch(k)` that misses on a cache satisfying the invariant of the
data model (all entries ready). When the cache holds exactly `cap >= 1`
entries, the locked section removes exactly the element at the back, from the
list and from the map, pushes the new element of `k` at the front, and leaves
every other element in place with its note and its map entry; when the cache
holds fewer than `cap` entries nothing is removed. When the source then
succeeds the completion changes neither the list nor the map nor the note of
any other element. -/
theorem C5_eviction_removes_back (c : impl) (hi : Inv c) (k now later : Int)
    (hl : Load c.valMap k = none) :
    ∃ c2 el, admission c now k = some (c2, el) ∧
      Fetch c now later k = some (complete c2 later el k) ∧
      el ∉ c.list ∧ Load c2.valMap k = some el ∧
      (1 ≤ c.cap → (c.list.length : Int) = c.cap →
        ∃ old kold, Back c.list = some old ∧ (c.notes old).id = some kold ∧
          Load c.valMap kold = some old ∧
          c2.list = el :: c.list.dropLast ∧ old ∉ c2.list ∧
          c2.valMap = Store (Delete c.valMap kold) k el ∧ Load c2.valMap kold = none ∧
          ∀ h ∈ c.list.dropLast, c2.notes h = c.notes h ∧
            ∀ j, Load c.valMap j = some h → Load c2.valMap j = some h) ∧
      ((c.list.length : Int) < c.cap →
        c2.list = el :: c.list ∧ c2.valMap = Store c.valMap k el ∧
          ∀ h ∈ c.list, c2.notes h = c.notes h ∧
            ∀ j, Load c.valMap j = some h → Load c2.valMap j = some h) ∧
      ((c.fetcher c.calls k).2 = none →
        (complete c2 later el k).2.list = c2.list ∧
        (complete c2 later el k).2.valMap = c2.valMap ∧
        ∀ h, h ≠ el → (complete c2 later el k).2.notes h = c2.notes h) := by
  obtain ⟨c0, hev, hi0, hno, hnx, hfe, hcap, hcalls, hsub, hload⟩ := evict_Inv hi
  have hfresh : c0.next ∉ c.list := by
    rw [hnx]; exact fun hm => lt_irrefl _ (hi.bound _ hm)
  refine ⟨_, c0.next, admission_miss now hl hev, Fetch_miss now later hl hev, hfresh,
    Load_Store_self _ _ _, ?_, ?_, ?_⟩
  · intro h1 hfull
    have hpos : 0 < c.list.length := by omega
    rcases hb : Back c.list with _ | old
    · have hnil : c.list = [] := by simpa [Back] using hb
      rw [hnil] at hpos
      simp at hpos
    · obtain ⟨kold, hk1, hk2⟩ := hi.indexed old (Back_mem hb)
      have hev2 := evict_ge (le_of_eq hfull.symm) hb hk1
      rw [hev] at hev2
      cases hev2
      have hdrop : Remove c.list old = c.list.dropLast := erase_last hi.nodup hb
      have hkk : kold ≠ k := by
        rintro rfl
        rw [hl] at hk2
        cases hk2
      have hold : old ∉ c.list.dropLast := by
        rw [← hdrop]
        exact fun hm => (hi.nodup.mem_erase_iff.1 hm).1 rfl
      refine ⟨old, kold, rfl, hk1, hk2, ?_, ?_, rfl, ?_, ?_⟩
      · show PushFront (Remove c.list old) c.next = c.next :: c.list.dropLast
        rw [hdrop]; rfl
      · show old ∉ PushFront (Remove c.list old) c.next
        rw [hdrop]
        intro hm
        rcases List.mem_cons.1 hm with e | hm
        · exact hfresh (e ▸ Back_mem hb)
        · exact hold hm
      · show Load (Store (Delete c.valMap kold) k c.next) kold = none
        rw [Load_Store_ne _ _ hkk, Load_Delete_self]
      · intro h hh
        have hmem : h ∈ c.list := List.mem_of_mem_dropLast hh
        have hne : h ≠ c.next := Nat.ne_of_lt (hi.bound h hmem)
        refine ⟨Function.update_noteq hne _ _, fun j hj => ?_⟩
        have hjk : j ≠ k := by
          rintro rfl
          rw [hl] at hj
          cases hj
        have hjo : j ≠ kold := by
          rintro rfl
          rw [hk2] at hj
          cases hj
          exact hold hh
        show Load (Store (Delete c.valMap kold) k c.next) j = some h
        rw [Load_Store_ne _ _ hjk, Load_Delete_ne _ hjo]
        exact hj
  · intro hlt
    have hev2 := evict_lt hlt
    rw [hev] at hev2
    cases hev2
    refine ⟨rfl, rfl, fun h hh => ?_⟩
    have hne : h ≠ c.next := Nat.ne_of_lt (hi.bound h hh)
    refine ⟨Function.update_noteq hne _ _, fun j hj => ?_⟩
    have hjk : j ≠ k := by
      rintro rfl
      rw [hl] at hj
      cases hj
    show Load (Store c.valMap k c.next) j = some h
    rw [Load_Store_ne _ _ hjk]
    exact hj
  · intro hs
    exact complete_ok_frame _ later c0.next k (by
      show (c0.fetcher c0.calls k).2 = none
      rw [hfe, hcalls]; exact hs)

theorem Inv_fullCache : Inv fullCache := by
  constructor
  · decide
  · decide
  · decide
  · intro h hh
    have : h = 1 ∨ h = 0 := by simpa [fullCache] using hh
    rcases this with rfl | rfl
    · exact ⟨1, rfl, rfl⟩
    · exact ⟨0, rfl, rfl⟩
  · intro k h hl
    have hl : Load [(1, 1), (0, 0)] k = some h := hl
    rw [Load_cons, Load_cons, Load_nil] at hl
    by_cases h1 : k = 1
    · subst h1
      simp at hl
      subst hl
      exact ⟨by decide, rfl⟩
    · by_cases h0 : k = 0
      · subst h0
        simp at hl
        subst hl
        exact ⟨by decide, rfl⟩
      · simp [h1, h0] at hl
  · rfl

/-- C5 on a full cache of capacity 2 holding the keys 1 (front) and 0 (back):
`Fetch(2)` removes the element of key 0 and keeps the element of key 1. -/
theorem C5_eviction_removes_back_witness :
    Inv fullCache ∧ Load fullCache.valMap 2 = none ∧
    ∃ c2 el, admission fullCache 4 2 = some (c2, el) ∧
      Fetch fullCache 4 5 2 = some (complete c2 5 el 2) ∧
      c2.list = [el, 1] ∧ (0 : Nat) ∉ c2.list ∧ Load c2.valMap 0 = none ∧
      Load c2.valMap 1 = some 1 ∧ Load c2.valMap 2 = some el ∧
      (complete c2 5 el 2).2.list = c2.list ∧ (complete c2 5 el 2).2.valMap = c2.valMap := by
  obtain ⟨c2, el, h1, h2, _, h4, h5, _, h7⟩ :=
    C5_eviction_removes_back fullCache Inv_fullCache 2 4 5 rfl
  obtain ⟨old, kold, g1, g2, _, g4, g5, _, g7, g8⟩ := h5 (by decide) rfl
  have e1 : old = 0 := by
    have : Back fullCache.list = some 0 := rfl
    rw [this] at g1
    exact (Option.some.inj g1).symm
  subst e1
  have e2 : kold = 0 := by
    have : (fullCache.notes 0).id = some 0 := rfl
    rw [this] at g2
    exact (Option.some.inj g2).symm
  subst e2
  have g9 := (g8 1 (by decide)).2 1 rfl
  have g10 := h7 rfl
  exact ⟨Inv_fullCache, rfl, c2, el, h1, h2, g4, g5, g7, g9, h4, g10.1, g10.2.1⟩

/-! ## The keys in the cache after `N` misses -/

theorem Load_none_of_not_ids {c : impl} (hi : Inv c) {k : Int} (h : some k ∉ ids c) :
    Load c.valMap k = none := by
  rcases hl : Load c.valMap k with _ | el
  · rfl
  · obtain ⟨h1, h2⟩ := hi.listed k el hl
    exact absurd (List.mem_map.2 ⟨el, h1, h2⟩) h

theorem Load_ne_none_iff_ids {c : impl} (hi : Inv c) (k : Int) :
    Load c.valMap k ≠ none ↔ some k ∈ ids c := by
  constructor
  · intro h
    by_contra hn
    exact h (Load_none_of_not_ids hi hn)
  · intro h
    obtain ⟨el, h1, h2⟩ := List.mem_map.1 h
    obtain ⟨k1, h3, h4⟩ := hi.indexed el h1
    rw [h3] at h2
    cases h2
    rw [h4]
    simp

theorem take_cons_window {α : Type} (cap : Nat) (hcap : 1 ≤ cap) (a : α) (l : List α)
    (hl : l.length ≤ cap) :
    a :: (if cap ≤ l.length then l.dropLast else l) = (a :: l).take cap := by
  obtain ⟨n, rfl⟩ : ∃ n, cap = n + 1 := ⟨cap - 1, by omega⟩
  rw [List.take_succ_cons]
  by_cases h : n + 1 ≤ l.length
  · rw [if_pos h, List.dropLast_eq_take]
    have : l.length - 1 = n := by omega
    rw [this]
  · rw [if_neg h, List.take_of_length_le (by omega)]

/-- The ids in the list after a miss that the source answers without error. -/
theorem Fetch_miss_ids {c : impl} (hi : Inv c) {k : Int} (hl : Load c.valMap k = none)
    (now later : Int) (hs : (c.fetcher c.calls k).2 = none) {cap : Nat} (hcap : 1 ≤ cap)
    (hc : c.cap = cap) (hlen : c.list.length ≤ cap) :
    ∃ c1, Fetch c now later k = some (((c.fetcher c.calls k).1, none), c1) ∧
      Inv c1 ∧ c1.cap = cap ∧ c1.list.length ≤ cap ∧ c1.fetcher = c.fetcher ∧
      c1.calls = c.calls ++ [k] ∧ ids c1 = (some k :: ids c).take cap := by
  obtain ⟨c0, hev, hi0, hno, hnx, hfe, hcap0, hcalls, hsub, hload⟩ := evict_Inv hi
  have hq : (c0.fetcher c0.calls k).2 = none := by rw [hfe, hcalls]; exact hs
  have hF := Fetch_miss_ok now later hl hev hq
  obtain ⟨r, c1, hF1, hi1, hcap1, hlen1⟩ := Fetch_Inv hi now later k
  rw [hF] at hF1
  cases hF1
  have hids0 : ids c0 = if cap ≤ (ids c).length then (ids c).dropLast else ids c := by
    have hlenids : (ids c).length = c.list.length := by simp [ids]
    rw [hlenids]
    by_cases hlt : (c.list.length : Int) < c.cap
    · rw [evict_lt hlt] at hev
      cases hev
      rw [if_neg]
      rw [hc] at hlt
      omega
    · rcases hb : Back c.list with _ | e
      · have hnil : c.list = [] := by simpa [Back] using hb
        rw [evict_nil hnil] at hev
        cases hev
        rw [hc] at hlt
        rw [hnil] at hlt
        simp at hlt
        omega
      · obtain ⟨k0, hk, _⟩ := hi.indexed e (Back_mem hb)
        rw [evict_ge (not_lt.1 hlt) hb hk] at hev
        cases hev
        rw [hc] at hlt
        rw [if_pos (by omega)]
        show (c.list.erase e).map (fun h => (c.notes h).id) = (ids c).dropLast
        rw [erase_last hi.nodup hb]
        simp [ids]
  refine ⟨_, ?_, hi1, hcap1.trans hc, ?_, hfe, ?_, ?_⟩
  · rw [hF, hfe, hcalls]
  · have := hlen1 (by rw [hc]; exact_mod_cast hcap) (by rw [hc]; exact_mod_cast hlen)
    rw [hcap1, hc] at this
    exact_mod_cast this
  · show c0.calls ++ [k] = c.calls ++ [k]
    rw [hcalls]
  · have h1 : ids { c0 with
          notes := Function.update c0.notes c0.next
            { ts := later, val := (c0.fetcher c0.calls k).1, id := some k },
          next := c0.next + 1,
          list := PushFront c0.list c0.next,
          valMap := Store c0.valMap k c0.next,
          calls := c0.calls ++ [k] } = some k :: ids c0 := by
      simp only [ids, PushFront, List.map_cons, Function.update_same]
      congr 1
      apply List.map_congr_left
      intro h hh
      rw [Function.update_noteq (Nat.ne_of_lt (hi0.bound h hh))]
    rw [h1, hids0]
    exact take_cons_window cap hcap _ _ (by simpa [ids] using hlen)

theorem take_append_take {α : Type} (n : Nat) (A B : List α) :
    (A ++ B.take n).take n = (A ++ B).take n := by
  rw [List.take_append_eq_append_take, List.take_append_eq_append_take, List.take_take]
  congr 2
  omega

theorem take_reverse_range (cap N : Nat) (h : cap ≤ N) :
    (List.range N).reverse.take cap = (List.range' (N - cap) cap).reverse := by
  have h1 : List.range N = List.range' 0 (N - cap) ++ List.range' (N - cap) cap := by
    rw [List.range_eq_range']
    have := List.range'_append_1 0 (N - cap) cap
    simp only [Nat.zero_add] at this
    rw [this]
    congr 1
    omega
  rw [h1, List.reverse_append]
  exact List.take_left' (by simp)

theorem fetchAll_misses (cap : Nat) (hcap : 1 ≤ cap) :
    ∀ (qs : List (Int × Int × Int)) (c : impl), Inv c → c.cap = cap → c.list.length ≤ cap →
      (∀ log k, (c.fetcher log k).2 = none) → (qs.map Prod.fst).Nodup →
      (∀ k ∈ qs.map Prod.fst, some k ∉ ids c) →
      ∃ c1, fetchAll c qs = some (expected c.fetcher c.calls (qs.map Prod.fst), c1) ∧
        Inv c1 ∧ c1.cap = cap ∧ c1.list.length ≤ cap ∧ c1.fetcher = c.fetcher ∧
        c1.calls = c.calls ++ qs.map Prod.fst ∧
        ids c1 = (((qs.map Prod.fst).map some).reverse ++ ids c).take cap := by
  intro qs
  induction qs with
  | nil =>
    intro c hi hc hlen _ _ _
    refine ⟨c, rfl, hi, hc, hlen, rfl, by simp, ?_⟩
    simp only [List.map_nil, List.reverse_nil, List.nil_append]
    rw [List.take_of_length_le]
    simpa [ids] using hlen
  | cons q qs ih =>
    intro c hi hc hlen hok hnd hnot
    rw [List.map_cons, List.nodup_cons] at hnd
    have hk : some q.1 ∉ ids c := hnot q.1 (by simp)
    obtain ⟨c1, hF, hi1, hc1, hlen1, hfe1, hcalls1, hids1⟩ :=
      Fetch_miss_ids hi (Load_none_of_not_ids hi hk) q.2.1 q.2.2 (hok _ _) hcap hc hlen
    have hnot1 : ∀ k ∈ qs.map Prod.fst, some k ∉ ids c1 := by
      intro k hk1 hm
      rw [hids1] at hm
      rcases List.mem_cons.1 (List.mem_of_mem_take hm) with e | hm
      · cases e
        exact hnd.1 hk1
      · exact hnot k (List.mem_cons_of_mem _ hk1) hm
    obtain ⟨c2, hA, hi2, hc2, hlen2, hfe2, hcalls2, hids2⟩ :=
      ih c1 hi1 hc1 hlen1 (by rw [hfe1]; exact hok) hnd.2 hnot1
    refine ⟨c2, ?_, hi2, hc2, hlen2, hfe2.trans hfe1, ?_, ?_⟩
    · simp only [fetchAll, hF, Option.some_bind, hA, Option.map_some', List.map_cons, expected,
        hfe1, hcalls1]
    · rw [hcalls2, hcalls1]; simp
    · rw [hids2, hids1, take_append_take]
      simp

theorem mem_window {cap N : Nat} {k : Int} :
    some k ∈ (List.range' (N - cap) cap).reverse.map (fun i : Nat => some (i : Int)) ↔
      ∃ i : Nat, N - cap ≤ i ∧ i < N - cap + cap ∧ k = i := by
  simp only [List.mem_map, List.mem_reverse, List.mem_range'_1, Option.some.injEq]
  constructor
  · rintro ⟨i, ⟨h1, h2⟩, h3⟩
    exact ⟨i, h1, h2, h3.symm⟩
  · rintro ⟨i, h1, h2, h3⟩
    exact ⟨i, ⟨h1, h2⟩, h3.symm⟩

/-- C6. For every capacity `cap >= 1`, every `N >= cap` and every source that
never fails: the calls `Fetch(0)`, ..., `Fetch(N-1)`, in that order and at any
readings of the clock, on the cache `New` builds all return the answer of the
source; afterwards the list holds the keys `N-1` (front) down to `N-cap`
(back), the map holds exactly those keys, and the source has been invoked `N`
times, once for each key in order. A following `Fetch(i)` for `i < N - cap`
invokes the source again and returns its value, and following up with
`Fetch(0)`, ..., `Fetch(M-1)` for `M <= N - cap` brings the source calls to
`N + M`. -/
theorem C6_lru_window (fetcher : Fetcher) (hok : ∀ log k, (fetcher log k).2 = none)
    (interval : Int) (cap N : Nat) (hcap : 1 ≤ cap) (hN : cap ≤ N)
    (qs : List (Int × Int × Int)) (hqs : qs.map Prod.fst = (List.range N).map Int.ofNat) :
    ∃ s, fetchAll (New fetcher interval cap) qs =
        some (expected fetcher [] ((List.range N).map Int.ofNat), s) ∧
      ids s = (List.range' (N - cap) cap).reverse.map (fun i : Nat => some (i : Int)) ∧
      (∀ k : Int, Load s.valMap k ≠ none ↔ ∃ i : Nat, N - cap ≤ i ∧ i < N ∧ k = i) ∧
      s.calls = (List.range N).map Int.ofNat ∧ s.calls.length = N ∧
      (∀ i : Nat, i < N - cap → ∀ t1 t2, ∃ s1,
        Fetch s t1 t2 i = some (((fetcher s.calls i).1, none), s1) ∧
        s1.calls = s.calls ++ [(i : Int)]) ∧
      (∀ (M : Nat) (qs1 : List (Int × Int × Int)), M ≤ N - cap →
        qs1.map Prod.fst = (List.range M).map Int.ofNat →
        ∃ s1, fetchAll s qs1 = some (expected fetcher s.calls ((List.range M).map Int.ofNat), s1) ∧
          s1.calls.length = N + M) := by
  have hnd : ∀ n, ((List.range n).map Int.ofNat).Nodup := fun n =>
    (List.nodup_range n).map Int.ofNat_injective
  obtain ⟨s, h1, hi, hc, hlen, hfe, hcalls, hids⟩ :=
    fetchAll_misses cap hcap qs (New fetcher interval cap) (Inv_New _ _ _) rfl
      (by simp [New]) hok (hqs ▸ hnd N) (by simp [ids, New])
  have hfe : s.fetcher = fetcher := hfe
  have hcalls : s.calls = (List.range N).map Int.ofNat := by
    rw [hcalls, hqs]; rfl
  have hids : ids s = (List.range' (N - cap) cap).reverse.map (fun i : Nat => some (i : Int)) := by
    rw [hids, hqs]
    have : ids (New fetcher interval cap) = [] := rfl
    rw [this, List.append_nil, List.map_map, ← List.map_reverse, ← List.map_take,
      take_reverse_range cap N hN]
    rfl
  have hadd : N - cap + cap = N := Nat.sub_add_cancel hN
  have hmiss : ∀ i : Nat, i < N - cap → some (i : Int) ∉ ids s := by
    intro i hi1 hm
    rw [hids, mem_window] at hm
    obtain ⟨j, h2, _, h4⟩ := hm
    have : i = j := by exact_mod_cast h4
    omega
  refine ⟨s, ?_, hids, ?_, hcalls, by rw [hcalls]; simp, ?_, ?_⟩
  · rw [h1, hqs]; rfl
  · intro k
    rw [Load_ne_none_iff_ids hi, hids, mem_window, hadd]
  · intro i hi1 t1 t2
    obtain ⟨s1, g1, _, _, _, _, g6, _⟩ :=
      Fetch_miss_ids hi (Load_none_of_not_ids hi (hmiss i hi1)) t1 t2
        (by rw [hfe]; exact hok _ _) hcap hc hlen
    rw [hfe] at g1
    exact ⟨s1, g1, g6⟩
  · intro M qs1 hM hqs1
    obtain ⟨s1, g1, _, _, _, _, g6, _⟩ :=
      fetchAll_misses cap hcap qs1 s hi hc hlen (by rw [hfe]; exact hok) (hqs1 ▸ hnd M)
        (by
          intro k hk
          rw [hqs1] at hk
          obtain ⟨i, hi1, rfl⟩ := List.mem_map.1 hk
          exact hmiss i (by have := List.mem_range.1 hi1; omega))
    rw [hfe, hqs1] at g1
    refine ⟨s1, g1, ?_⟩
    rw [g6, hcalls, hqs1]
    simp

theorem map_fst_stamp (n : Nat) (t1 t2 : Int) :
    ((List.range n).map fun i : Nat => ((i : Int), t1, t2)).map Prod.fst =
      (List.range n).map Int.ofNat := by
  rw [List.map_map]
  rfl

/-- C6 on the run of `Test_Capacity`: capacity 1000, the keys 0..1199 and then
0..199 again, 1400 source calls in total. -/
theorem C6_lru_window_witness :
    (∀ log k, (testFetcher log k).2 = none) ∧ 1 ≤ 1000 ∧ 1000 ≤ 1200 ∧
    ∃ s, fetchAll (New testFetcher 1000 (1000 : Nat))
          ((List.range 1200).map fun i : Nat => ((i : Int), 0, 1)) =
        some (expected testFetcher [] ((List.range 1200).map Int.ofNat), s) ∧
      ids s = (List.range' (1200 - 1000) 1000).reverse.map (fun i : Nat => some (i : Int)) ∧
      s.calls.length = 1200 ∧
      ∃ s1, fetchAll s ((List.range 200).map fun i : Nat => ((i : Int), 2, 3)) =
          some (expected testFetcher s.calls ((List.range 200).map Int.ofNat), s1) ∧
        s1.calls.length = 1200 + 200 :=
  ⟨fun _ _ => rfl, by decide, by decide,
    (C6_lru_window testFetcher (fun _ _ => rfl) 1000 1000 1200 (by decide) (by decide)
      ((List.range 1200).map fun i : Nat => ((i : Int), 0, 1)) (map_fst_stamp 1200 0 1)).imp
      fun _ h => ⟨h.1, h.2.1, h.2.2.2.2.1,
        h.2.2.2.2.2.2 200 _ (by decide) (map_fst_stamp 200 2 3)⟩⟩

/-! ## What a pass removes and what it keeps -/

/-- C7, the code at a failing input. On the cache `fullCache`, whose two
entries are ready and were last accessed at times 3 and 1, a pass at time 1000
with a ttl of 100 removes the element at the back only: the loop ends there,
because `e.Prev()` of the removed element is nil. The entry of key 1, idle for
997 ticks, is still in the list and in the map, the variable `ts` is still the
zero time, and a following `Fetch(1)` answers from the cache without a source
call. -/
theorem C7_pass_stops_after_first_removal :
    (backgroundCleanup fullCache 1000 100).1.list = [1] ∧
    (backgroundCleanup fullCache 1000 100).1.valMap = [(1, 1)] ∧
    ((backgroundCleanup fullCache 1000 100).1.notes 1).id = some 1 ∧
    1000 - ((backgroundCleanup fullCache 1000 100).1.notes 1).ts > 100 ∧
    (backgroundCleanup fullCache 1000 100).2 = none ∧
    (Fetch (backgroundCleanup fullCache 1000 100).1 1001 1002 1).map
      (fun r => (r.1, r.2.calls)) = some (("test1", none), fullCache.calls) := by
  refine ⟨by decide, by decide, by decide, by decide, by decide, by decide⟩

/-- What a pass keeps. On a cache whose list holds an element once, a pass of
the reclaimer changes no note (no value, no last access), keeps the elements it leaves in
their order, keeps in the list every element that is not ready or whose last
access is at most `ttl` old, and removes only elements that are ready and idle
for longer than `ttl`. When moreover every ready element of the list is the
entry of the map for its id (invariant 2 of the data model), every element the
pass keeps is still in the map under each of its keys. -/
theorem pass_keeps_the_rest (c : impl) (now ttl : Int) (hn : c.list.Nodup) :
    (backgroundCleanup c now ttl).1.notes = c.notes ∧
    (backgroundCleanup c now ttl).1.list.Sublist c.list ∧
    (∀ h ∈ c.list, ((c.notes h).id = none ∨ now - (c.notes h).ts ≤ ttl) →
      h ∈ (backgroundCleanup c now ttl).1.list) ∧
    (∀ h ∈ c.list, h ∉ (backgroundCleanup c now ttl).1.list →
      (c.notes h).id ≠ none ∧ now - (c.notes h).ts > ttl) ∧
    ((∀ h ∈ c.list, ∀ k, (c.notes h).id = some k → Load c.valMap k = some h) →
      ∀ h ∈ c.list, ((c.notes h).id = none ∨ now - (c.notes h).ts ≤ ttl) →
        ∀ k, Load c.valMap k = some h →
          Load (backgroundCleanup c now ttl).1.valMap k = some h) := by
  rcases backgroundCleanup_cases c now ttl hn with h | ⟨e, k, h1, h2, h3, h4⟩
  · rw [h]
    exact ⟨rfl, List.Sublist.refl _, fun h hh _ => hh, fun h hh hno => absurd hh hno,
      fun _ _ _ _ _ hk => hk⟩
  · rw [h4]
    have hne : ∀ h, ((c.notes h).id = none ∨ now - (c.notes h).ts ≤ ttl) → h ≠ e := by
      rintro h hkeep rfl
      rcases hkeep with hk | hk
      · rw [h2] at hk; cases hk
      · omega
    refine ⟨rfl, List.erase_sublist e c.list, ?_, ?_, ?_⟩
    · intro h hh hkeep
      exact (List.mem_erase_of_ne (hne h hkeep)).2 hh
    · intro h hh hno
      have : h = e := by
        by_contra hne1
        exact hno ((List.mem_erase_of_ne hne1).2 hh)
      subst this
      exact ⟨by rw [h2]; simp, h3⟩
    · intro hx h _ hkeep k1 hk1
      have hkk : k1 ≠ k := by
        rintro rfl
        rw [hx e h1 k1 h2] at hk1
        exact hne h hkeep (Option.some.inj hk1).symm
      show Load (Delete c.valMap k) k1 = some h
      rw [Load_Delete_ne _ hkk]
      exact hk1

/-- On `mixedCache` at time 110 with a ttl of 100 the placeholder of key 2
and the entry of key 1, idle for 20 ticks, stay where they are, in the list
and in the map. -/
theorem pass_keeps_the_rest_on_mixedCache :
    mixedCache.list.Nodup ∧
    (∀ h ∈ mixedCache.list, ∀ k, (mixedCache.notes h).id = some k →
      Load mixedCache.valMap k = some h) ∧
    (backgroundCleanup mixedCache 110 100).1.list = [2, 1] ∧
    (backgroundCleanup mixedCache 110 100).1.notes = mixedCache.notes ∧
    2 ∈ (backgroundCleanup mixedCache 110 100).1.list ∧
    1 ∈ (backgroundCleanup mixedCache 110 100).1.list ∧
    (∀ k, Load mixedCache.valMap k = some 2 →
      Load (backgroundCleanup mixedCache 110 100).1.valMap k = some 2) ∧
    (∀ k, Load mixedCache.valMap k = some 1 →
      Load (backgroundCleanup mixedCache 110 100).1.valMap k = some 1) := by
  have hn : mixedCache.list.Nodup := by decide
  have hx : ∀ h ∈ mixedCache.list, ∀ k, (mixedCache.notes h).id = some k →
      Load mixedCache.valMap k = some h := by
    intro h hh k hk
    have : h = 2 ∨ h = 1 ∨ h = 0 := by simpa [mixedCache] using hh
    rcases this with rfl | rfl | rfl
    · have h0 : (mixedCache.notes 2).id = none := rfl
      rw [h0] at hk
      cases hk
    · have : k = 1 := (Option.some.inj hk).symm
      subst this; rfl
    · have : k = 0 := (Option.some.inj hk).symm
      subst this; rfl
  have h := pass_keeps_the_rest mixedCache 110 100 hn
  exact ⟨hn, hx, by decide, h.1, h.2.2.1 2 (by decide) (Or.inl rfl),
    h.2.2.1 1 (by decide) (Or.inr (by decide)),
    h.2.2.2.2 hx 2 (by decide) (Or.inl rfl),
    h.2.2.2.2 hx 1 (by decide) (Or.inr (by decide))⟩

/-- C8, the code at two failing inputs, both reached by callers of `Fetch(7)`
on `New failsTwice 100 1000`. After `fiveCallers` and the completion of D at
time 7 the list holds the elements 2 and 1, both ready with the id 7, and the
map sends 7 to the element 2, because the failure step of B deleted the key
of the element 1. A pass at time 106 with a ttl of 100 removes the element 1,
idle for 101 ticks, and deletes the key 7: the element 2, ready and idle for
99 ticks only, stays in the list and is no longer in the map. After
`fiveCallers` alone the element 2 is the placeholder of D, and a pass at time
200 deletes its key in the same way: an entry that is not ready is no longer
in the map. -/
theorem C8_pass_deletes_key_of_kept_entry :
    (play ⟨New failsTwice 100 1000, []⟩ (fiveCallers ++ [.leave 0 7])).map
      (fun w => (w.cache.list, w.cache.valMap, (w.cache.notes 2).id, (w.cache.notes 1).id,
        decide (106 - (w.cache.notes 2).ts ≤ 100), decide (106 - (w.cache.notes 1).ts > 100),
        Load w.cache.valMap 7)) =
      some ([2, 1], [(7, 2)], some 7, some 7, true, true, some 2) ∧
    (play ⟨New failsTwice 100 1000, []⟩ (fiveCallers ++ [.leave 0 7])).map
      (fun w => ((backgroundCleanup w.cache 106 100).1.list,
        (backgroundCleanup w.cache 106 100).1.valMap,
        Load (backgroundCleanup w.cache 106 100).1.valMap 7)) =
      some ([2], [], none) ∧
    (play ⟨New failsTwice 100 1000, []⟩ fiveCallers).map
      (fun w => (w.cache.list, w.cache.valMap, (w.cache.notes 2).id, Load w.cache.valMap 7,
        w.waiting)) =
      some ([2, 1], [(7, 2)], none, some 2, [{ id := 7, el := 2 }]) ∧
    (play ⟨New failsTwice 100 1000, []⟩ fiveCallers).map
      (fun w => ((backgroundCleanup w.cache 200 100).1.list,
        (backgroundCleanup w.cache 200 100).1.valMap,
        Load (backgroundCleanup w.cache 200 100).1.valMap 7)) =
      some ([2], [], none) := by
  refine ⟨by rfl, by rfl, by rfl, by rfl⟩

/-! ## Construction -/

/-- C9, counterexample. `New` with capacity 0 and ttl -1 reports no failure: it
returns a cache on which `Fetch(7)` invokes the source and returns its value,
and on which a second `Fetch(7)` answers from the cache. -/
theorem C9_New_accepts_capacity_zero :
    (New testFetcher (-1) 0).cap = 0 ∧
    (Fetch (New testFetcher (-1) 0) 0 1 7).map (fun r => (r.1, r.2.calls, r.2.list.length)) =
      some (("test7", none), [7], 1) ∧
    ((Fetch (New testFetcher (-1) 0) 0 1 7).bind fun r => Fetch r.2 2 3 7).map
      (fun r => (r.1, r.2.calls)) = some (("test7", none), [7]) := by
  refine ⟨rfl, by decide, by decide⟩

/-- C9, amended. `New` checks neither argument: for every capacity and every
ttl, a capacity below 1 and a ttl of at most 0 included, it returns the empty
cache with that capacity, which satisfies the invariant of the data model, and
on which every `Fetch(k)` returns: it invokes the source once and gives back
its error, with its value when the error is nil and the empty string
otherwise. -/
theorem C9_New_never_fails (fetcher : Fetcher) (interval cap : Int) :
    (New fetcher interval cap).list = [] ∧ (New fetcher interval cap).valMap = [] ∧
    (New fetcher interval cap).cap = cap ∧ (New fetcher interval cap).calls = [] ∧
    Inv (New fetcher interval cap) ∧
    ∀ k now later, ∃ c1, Fetch (New fetcher interval cap) now later k =
        some ((if (fetcher [] k).2 = none then (fetcher [] k).1 else "", (fetcher [] k).2), c1) ∧
      c1.calls = [k] :=
  ⟨rfl, rfl, rfl, rfl, Inv_New _ _ _, fun k now later =>
    (Fetch_absent (Inv_New fetcher interval cap) (Load_nil k) now later).imp
      fun _ h => ⟨h.1, h.2.1⟩⟩

/-- Every sequence of `Fetch` calls and reclaimer passes run one at a time from
a state that satisfies the invariant returns, in a state that satisfies it,
whatever the capacity. -/
theorem Inv_run (interval : Int) (ops : List Op) :
    ∀ c : impl, Inv c → ∃ c1, run interval c ops = some c1 ∧ Inv c1 := by
  induction ops with
  | nil => intro c hi; exact ⟨c, rfl, hi⟩
  | cons op ops ih =>
    intro c hi
    cases op with
    | fetch id now later =>
      obtain ⟨r, c1, hf, hi1, _, _⟩ := Fetch_Inv hi now later id
      obtain ⟨c2, h2, hi2⟩ := ih c1 hi1
      exact ⟨c2, by simp [run, step, hf, h2], hi2⟩
    | cleanup now =>
      obtain ⟨c2, h2, hi2⟩ := ih _ (backgroundCleanup_Inv hi now interval).1
      exact ⟨c2, by simp [run, step, h2], hi2⟩

/-- The fixture `fullCache` is the cache after `Fetch(0)` and `Fetch(1)` on
`New testFetcher 100 2`: same list, map, allocator, log, capacity and notes of
the two elements. -/
theorem fullCache_reached :
    (run 100 (New testFetcher 100 2) [Op.fetch 0 0 1, Op.fetch 1 2 3]).map
      (fun c => (c.list, c.valMap, c.next, c.calls, c.cap, c.notes 0, c.notes 1)) =
    some (fullCache.list, fullCache.valMap, fullCache.next, fullCache.calls, fullCache.cap,
      fullCache.notes 0, fullCache.notes 1) := by
  rfl

/-- The fixture `mixedCache` is the cache after `Fetch(0)`, `Fetch(1)` and the
locked section of a `Fetch(2)` at time 95 on `New testFetcher 100 3`. -/
theorem mixedCache_reached :
    ((run 100 (New testFetcher 100 3) [Op.fetch 0 0 1, Op.fetch 1 89 90]).bind
      fun c => admission c 95 2).map
      (fun p => (p.1.list, p.1.valMap, p.1.next, p.1.calls, p.1.cap,
        p.1.notes 0, p.1.notes 1, p.1.notes 2, p.2)) =
    some (mixedCache.list, mixedCache.valMap, mixedCache.next, mixedCache.calls, mixedCache.cap,
      mixedCache.notes 0, mixedCache.notes 1, mixedCache.notes 2, 2) := by
  rfl

/-! ## Hits -/

/-- C11. A `Fetch(k)` that hits (the map sends `k` to an element whose note is
ready) returns the stored value with a nil error, sets the last access of that
element to the current time, leaves the list as `MoveToFront` gives it (when
the element is in the list it is now at the front and the other elements keep
their order), and changes no value, no id (readiness), no last access of
another element, no map entry, and invokes no source. -/
theorem C11_hit_touches_only_recency (c : impl) (k now later : Int) (el : Nat)
    (hl : Load c.valMap k = some el) (hr : (c.notes el).id ≠ none) :
    ∃ c1, Fetch c now later k = some (((c.notes el).val, none), c1) ∧
      (c1.notes el).ts = now ∧
      c1.list = MoveToFront c.list el ∧
      (el ∈ c.list → c1.list = el :: c.list.erase el ∧ c1.list.head? = some el ∧
        c1.list.erase el = c.list.erase el) ∧
      (∀ h, (c1.notes h).val = (c.notes h).val ∧ (c1.notes h).id = (c.notes h).id) ∧
      (∀ h, h ≠ el → c1.notes h = c.notes h) ∧
      c1.valMap = c.valMap ∧ c1.calls = c.calls ∧ c1.next = c.next ∧ c1.cap = c.cap := by
  refine ⟨(hit c now el).2, Fetch_hit now later hl hr, by simp [hit], rfl, ?_, ?_, ?_,
    rfl, rfl, rfl, rfl⟩
  · intro hm
    have h1 : (hit c now el).2.list = el :: c.list.erase el := by
      show MoveToFront c.list el = _
      unfold MoveToFront
      rw [if_pos hm]
    rw [h1]
    exact ⟨rfl, rfl, List.erase_cons_head el _⟩
  · intro h
    by_cases e : h = el
    · subst e; simp [hit]
    · simp [hit, Function.update_noteq e]
  · intro h e
    simp [hit, Function.update_noteq e]

/-- C11 on `fullCache`: `Fetch(0)` moves the element of key 0 from the back to
the front and stamps it with the time 50. -/
theorem C11_hit_touches_only_recency_witness :
    Load fullCache.valMap 0 = some 0 ∧ (fullCache.notes 0).id ≠ none ∧
    ∃ c1, Fetch fullCache 50 51 0 = some (("test0", none), c1) ∧
      (c1.notes 0).ts = 50 ∧ c1.list = [0, 1] ∧ c1.notes 1 = fullCache.notes 1 ∧
      c1.valMap = fullCache.valMap ∧ c1.calls = fullCache.calls := by
  obtain ⟨c1, h1, h2, _, h4, _, h6, h7, h8, _⟩ :=
    C11_hit_touches_only_recency fullCache 0 50 51 0 rfl (by decide)
  exact ⟨rfl, by decide, c1, h1, h2, (h4 (by decide)).1, h6 1 (by decide), h7, h8⟩

/-! ## The bijection between the map and the list -/

theorem ids_nodup {c : impl} (hi : Inv c) : (ids c).Nodup := by
  unfold ids
  refine List.Nodup.map_on ?_ hi.nodup
  intro a ha b hb hab
  obtain ⟨k1, h1, h2⟩ := hi.indexed a ha
  obtain ⟨k2, h3, h4⟩ := hi.indexed b hb
  rw [h1, h3] at hab
  cases hab
  rw [h2] at h4
  exact Option.some.inj h4

/-- C12. After every sequence of completed `Fetch` calls and reclaimer passes
run one at a time from the empty cache `New` builds, for every capacity (those
of at least one included) and after each call of the sequence: the run has
returned, the keys of the map are exactly the ids of the entries of the list,
no id occurs twice in the list, the map sends each id to the element of the
list that holds it (and to no other element), every entry of the list is ready,
and the list holds an element once. -/
theorem C12_map_and_list_in_bijection (fetcher : Fetcher) (interval cap : Int)
    (ops : List Op) (n : Nat) :
    ∃ c, run interval (New fetcher interval cap) (ops.take n) = some c ∧
      (∀ k, k ∈ c.valMap.map Prod.fst ↔ some k ∈ ids c) ∧
      (ids c).Nodup ∧
      (∀ h ∈ c.list, ∀ k, (c.notes h).id = some k → Load c.valMap k = some h) ∧
      (∀ k h, Load c.valMap k = some h → h ∈ c.list ∧ (c.notes h).id = some k) ∧
      (∀ h ∈ c.list, (c.notes h).id ≠ none) ∧
      c.list.Nodup ∧ (c.valMap.map Prod.fst).Nodup := by
  obtain ⟨c, h1, hi⟩ := Inv_run interval (ops.take n) (New fetcher interval cap)
    (Inv_New fetcher interval cap)
  refine ⟨c, h1, ?_, ids_nodup hi, ?_, hi.listed, ?_, hi.nodup, hi.keys⟩
  · intro k
    rw [← Load_ne_none_iff_ids hi k, Ne, Load_eq_none_iff, not_not]
  · intro h hh k hk
    obtain ⟨k1, h2, h3⟩ := hi.indexed h hh
    rw [hk] at h2
    cases h2
    exact h3
  · intro h hh
    obtain ⟨k1, h2, _⟩ := hi.indexed h hh
    rw [h2]
    simp

/-! ## `Fetch` and time -/

theorem SameButTime_mk {n m : Nat → note} (x : Nat) (l : List Nat) (vm : List (Int × Nat))
    (f : Fetcher) (cap : Int) (cs : List Int)
    (h : ∀ h, (n h).val = (m h).val ∧ (n h).id = (m h).id) :
    SameButTime ⟨n, x, l, vm, f, cap, cs⟩ ⟨m, x, l, vm, f, cap, cs⟩ :=
  ⟨rfl, rfl, rfl, rfl, rfl, rfl, h⟩

theorem evict_SameButTime {c d : impl} (h : SameButTime c d) :
    (evict c = none ∧ evict d = none) ∨
    ∃ c1 d1, evict c = some c1 ∧ evict d = some d1 ∧ SameButTime c1 d1 := by
  rcases c with ⟨cn, cx, cl, cm, cf, cc, ccs⟩
  rcases d with ⟨dn, dx, dl, dm, df, dc, dcs⟩
  obtain ⟨h1, h2, h3, h4, h5, h6, h7⟩ := h
  dsimp only at h1 h2 h3 h4 h5 h6 h7
  subst h1 h2 h3 h4 h5 h6
  unfold evict
  dsimp only
  by_cases hge : (cl.length : Int) ≥ cc
  · rw [if_pos hge, if_pos hge]
    rcases hb : Back cl with _ | e
    · exact Or.inr ⟨_, _, rfl, rfl, SameButTime_mk _ _ _ _ _ _ h7⟩
    · dsimp only
      rw [← (h7 e).2]
      rcases hid : (cn e).id with _ | k
      · exact Or.inl ⟨rfl, rfl⟩
      · exact Or.inr ⟨_, _, rfl, rfl, SameButTime_mk _ _ _ _ _ _ h7⟩
  · rw [if_neg hge, if_neg hge]
    exact Or.inr ⟨_, _, rfl, rfl, SameButTime_mk _ _ _ _ _ _ h7⟩

theorem complete_SameButTime {c d : impl} (h : SameButTime c d) (t1 t2 : Int) (el : Nat)
    (id : Int) :
    (complete c t1 el id).1 = (complete d t2 el id).1 ∧
    SameButTime (complete c t1 el id).2 (complete d t2 el id).2 := by
  rcases c with ⟨cn, cx, cl, cm, cf, cc, ccs⟩
  rcases d with ⟨dn, dx, dl, dm, df, dc, dcs⟩
  obtain ⟨h1, h2, h3, h4, h5, h6, h7⟩ := h
  dsimp only at h1 h2 h3 h4 h5 h6 h7
  subst h1 h2 h3 h4 h5 h6
  unfold complete
  dsimp only
  rw [← (h7 el).2, ← (h7 el).1]
  rcases hid : (cn el).id with _ | k
  · dsimp only
    rcases hq : (cf ccs id).2 with _ | err
    · dsimp only
      refine ⟨rfl, SameButTime_mk _ _ _ _ _ _ fun h => ?_⟩
      by_cases e : h = el
      · subst e; simp
      · simpa [Function.update_noteq e] using h7 h
    · exact ⟨rfl, SameButTime_mk _ _ _ _ _ _ h7⟩
  · exact ⟨rfl, SameButTime_mk _ _ _ _ _ _ h7⟩

theorem hit_SameButTime {c d : impl} (h : SameButTime c d) (t1 t2 : Int) (el : Nat) :
    (hit c t1 el).1 = (hit d t2 el).1 ∧ SameButTime (hit c t1 el).2 (hit d t2 el).2 := by
  rcases c with ⟨cn, cx, cl, cm, cf, cc, ccs⟩
  rcases d with ⟨dn, dx, dl, dm, df, dc, dcs⟩
  obtain ⟨h1, h2, h3, h4, h5, h6, h7⟩ := h
  dsimp only at h1 h2 h3 h4 h5 h6 h7
  subst h1 h2 h3 h4 h5 h6
  refine ⟨by simp [hit, (h7 el).1], SameButTime_mk _ _ _ _ _ _ fun h => ?_⟩
  by_cases e : h = el
  · subst e; simpa using h7 h
  · simpa [Function.update_noteq e] using h7 h

theorem admission_complete_SameButTime {c d : impl} (h : SameButTime c d)
    (n1 l1 n2 l2 id : Int) :
    Agree ((admission c n1 id).map fun p => complete p.1 l1 p.2 id)
      ((admission d n2 id).map fun p => complete p.1 l2 p.2 id) := by
  unfold admission
  rw [← h.2.1]
  rcases hl : Load c.valMap id with _ | el
  · dsimp only
    rcases evict_SameButTime h with ⟨e1, e2⟩ | ⟨c1, d1, e1, e2, g⟩
    · rw [e1, e2]; exact trivial
    · rw [e1, e2]
      simp only [Option.map_some']
      rcases c1 with ⟨cn, cx, cl, cm, cf, cc, ccs⟩
      rcases d1 with ⟨dn, dx, dl, dm, df, dc, dcs⟩
      obtain ⟨g1, g2, g3, g4, g5, g6, g7⟩ := g
      dsimp only at g1 g2 g3 g4 g5 g6 g7
      subst g1 g2 g3 g4 g5 g6
      refine complete_SameButTime (SameButTime_mk _ _ _ _ _ _ fun h => ?_) l1 l2 _ id
      by_cases e : h = cx
      · subst e; simp
      · simpa [Function.update_noteq e] using g7 h
  · simp only [Option.map_some']
    exact complete_SameButTime h l1 l2 el id

/-- The outcome of `Fetch` does not depend on the time stamps of the notes nor
on the readings of the clock. -/
theorem Fetch_SameButTime {c d : impl} (h : SameButTime c d) (n1 l1 n2 l2 id : Int) :
    Agree (Fetch c n1 l1 id) (Fetch d n2 l2 id) := by
  unfold Fetch
  rw [← h.2.1]
  rcases hl : Load c.valMap id with _ | el
  · exact admission_complete_SameButTime h n1 l1 n2 l2 id
  · dsimp only
    rw [← (h.2.2.2.2.2.2 el).2]
    by_cases hr : (c.notes el).id ≠ none
    · rw [if_pos hr, if_pos hr]
      exact hit_SameButTime h n1 n2 el
    · rw [if_neg hr, if_neg hr]
      exact admission_complete_SameButTime h n1 l1 n2 l2 id

theorem mem_MoveToFront {l : List Nat} {el h : Nat} : h ∈ MoveToFront l el ↔ h ∈ l := by
  unfold MoveToFront
  split
  · rename_i hel
    constructor
    · intro hh
      rcases List.mem_cons.1 hh with rfl | hh
      · exact hel
      · exact List.mem_of_mem_erase hh
    · intro hh
      by_cases e : h = el
      · subst e; exact List.mem_cons_self _ _
      · exact List.mem_cons_of_mem _ ((List.mem_erase_of_ne e).2 hh)
  · rfl

/-- C17. `Fetch` has no ttl and compares no age. In every state in which the
map sends `k` to a ready element, `Fetch(k)` at any reading of the clock,
however long after the last access, returns the stored value with a nil error,
without a source call and without removing anything from the map or the list.
And for any key the outcome of `Fetch` (the result, the list, the map, the
source calls, the values and ids of the notes) is the same on two caches that
differ only in their time stamps, at any readings of the clock: no entry is
removed by `Fetch` because of its age. -/
theorem C17_fetch_ignores_age (c : impl) (k : Int) (el : Nat)
    (hl : Load c.valMap k = some el) (hr : (c.notes el).id ≠ none) :
    (∀ now later, ∃ c1, Fetch c now later k = some (((c.notes el).val, none), c1) ∧
      c1.calls = c.calls ∧ c1.valMap = c.valMap ∧ ∀ h, h ∈ c1.list ↔ h ∈ c.list) ∧
    (∀ d, SameButTime c d → ∀ n1 l1 n2 l2 id, Agree (Fetch c n1 l1 id) (Fetch d n2 l2 id)) :=
  ⟨fun now later => ⟨(hit c now el).2, Fetch_hit now later hl hr, rfl, rfl,
      fun _ => mem_MoveToFront⟩,
    fun _ h n1 l1 n2 l2 id => Fetch_SameButTime h n1 l1 n2 l2 id⟩

/-- C17 on `fullCache`, whose key 1 was last accessed at time 3: a `Fetch(1)`
at time 1000000000 still answers from the cache. -/
theorem C17_fetch_ignores_age_witness :
    Load fullCache.valMap 1 = some 1 ∧ (fullCache.notes 1).id ≠ none ∧
    (fullCache.notes 1).ts = 3 ∧
    ∃ c1, Fetch fullCache 1000000000 1000000001 1 = some (("test1", none), c1) ∧
      c1.calls = fullCache.calls ∧ c1.valMap = fullCache.valMap ∧
      ∀ h, h ∈ c1.list ↔ h ∈ fullCache.list :=
  ⟨rfl, by decide, rfl,
    (C17_fetch_ignores_age fullCache 1 1 rfl (by decide)).1 1000000000 1000000001⟩

/-! ## Failed misses -/

theorem Inv_fetcher {c : impl} (hi : Inv c) (f : Fetcher) : Inv { c with fetcher := f } :=
  ⟨hi.nodup, hi.bound, hi.keys, hi.indexed, hi.listed, hi.size⟩

/-- C18. On a cache that satisfies the invariant of the data model and does not
hold `k`, a `Fetch(k)` whose source call fails with `e` returns `("", e)` and
changes the note of no element of the list. When the cache held fewer than
`cap` entries the list and the map are afterwards what they were before the
call; when it held exactly `cap >= 1` entries the element at the back was
removed from the list and the map before the source call and stays removed, so
that `cap - 1` entries are left, the others in their order. -/
theorem C18_failed_miss_rolls_back (c : impl) (hi : Inv c) (k now later : Int) (e : Error)
    (hl : Load c.valMap k = none) (he : (c.fetcher c.calls k).2 = some e) :
    ∃ c1, Fetch c now later k = some (("", some e), c1) ∧
      (∀ h ∈ c.list, c1.notes h = c.notes h) ∧
      ((c.list.length : Int) < c.cap → c1.list = c.list ∧ c1.valMap = c.valMap) ∧
      (1 ≤ c.cap → (c.list.length : Int) = c.cap →
        ∃ old kold, Back c.list = some old ∧ (c.notes old).id = some kold ∧
          c1.list = c.list.dropLast ∧ c1.valMap = Delete c.valMap kold ∧
          old ∉ c1.list ∧ Load c1.valMap kold = none ∧
          (c1.list.length : Int) = c.cap - 1) := by
  obtain ⟨c0, hev, hi0, hno, hnx, hfe, hcap, hcalls, hsub, hload⟩ := evict_Inv hi
  have hq : (c0.fetcher c0.calls k).2 = some e := by rw [hfe, hcalls]; exact he
  have hF := Fetch_miss_err now later hl hev hq
  rw [Delete_of_Load_none (hload k hl)] at hF
  refine ⟨_, hF, ?_, ?_, ?_⟩
  · intro h hh
    show Function.update c0.notes c0.next _ h = c.notes h
    rw [Function.update_noteq (by rw [hnx]; exact Nat.ne_of_lt (hi.bound h hh)), hno]
  · intro hlt
    have hev2 := evict_lt hlt
    rw [hev] at hev2
    cases hev2
    exact ⟨rfl, rfl⟩
  · intro h1 hfull
    have hpos : 0 < c.list.length := by omega
    rcases hb : Back c.list with _ | old
    · have hnil : c.list = [] := by simpa [Back] using hb
      rw [hnil] at hpos
      simp at hpos
    · obtain ⟨kold, hk1, hk2⟩ := hi.indexed old (Back_mem hb)
      have hev2 := evict_ge (le_of_eq hfull.symm) hb hk1
      rw [hev] at hev2
      cases hev2
      have hdrop : Remove c.list old = c.list.dropLast := erase_last hi.nodup hb
      refine ⟨old, kold, rfl, hk1, hdrop, rfl, ?_, Load_Delete_self _ _, ?_⟩
      · show old ∉ Remove c.list old
        exact fun hm => (hi.nodup.mem_erase_iff.1 hm).1 rfl
      · show ((Remove c.list old).length : Int) = c.cap - 1
        rw [hdrop, List.length_dropLast, ← hfull]
        omega

/-- C18 on the full cache `fullCache` with a source that fails on key 2: the
failed `Fetch(2)` has evicted key 0 and leaves the single entry of key 1. -/
theorem C18_failed_miss_rolls_back_witness :
    Inv { fullCache with fetcher := flakyFetcher } ∧
    Load fullCache.valMap 2 = none ∧ (flakyFetcher fullCache.calls 2).2 = some "error" ∧
    ∃ c1, Fetch { fullCache with fetcher := flakyFetcher } 4 5 2 = some (("", some "error"), c1) ∧
      c1.list = [1] ∧ c1.valMap = [(1, 1)] ∧ c1.notes 1 = fullCache.notes 1 ∧
      (c1.list.length : Int) = 2 - 1 := by
  have hi := Inv_fetcher Inv_fullCache flakyFetcher
  obtain ⟨c1, h1, h2, _, h4⟩ :=
    C18_failed_miss_rolls_back { fullCache with fetcher := flakyFetcher } hi 2 4 5 "error" rfl
      (by decide)
  obtain ⟨old, kold, g1, g2, g3, g4, _, _, g7⟩ := h4 (by decide) rfl
  have e1 : old = 0 := by
    have : Back fullCache.list = some 0 := rfl
    exact (Option.some.inj (this.symm.trans g1)).symm
  subst e1
  have e2 : kold = 0 := by
    have : (fullCache.notes 0).id = some 0 := rfl
    exact (Option.some.inj (this.symm.trans g2)).symm
  subst e2
  exact ⟨hi, rfl, by decide, c1, h1, g3, g4, h2 1 (by decide), g7⟩

/-! ## The pause of the reclaimer -/

/-- C13, the code at a failing input. On `fullCache`, whose two entries are
both idle for longer than the ttl at time 1000, the pass removes the element at
the back and ends there with the zero `ts`: the list still holds the entry of
key 1, and the reclaimer waits on the condition variable instead of sleeping
until a deadline. -/
theorem C13_waits_with_entries_left :
    (backgroundCleanup fullCache 1000 100).1.list = [1] ∧
    (backgroundCleanup fullCache 1000 100).1.list ≠ [] ∧
    pauseAfter (backgroundCleanup fullCache 1000 100).2 = Pause.waitSignal := by
  refine ⟨by decide, by decide, by decide⟩

theorem sweep_all_kept (now interval : Int) (c : impl) (rest : List Nat)
    (hk : ∀ h ∈ rest, (c.notes h).id = none ∨ now - (c.notes h).ts ≤ interval) :
    ∀ ts, sweep now interval c rest ts =
      (c, (rest.getLast?.map fun h => (c.notes h).ts + interval).or ts) := by
  induction rest with
  | nil => intro ts; simp [sweep]
  | cons e rest ih =>
    intro ts
    have hk1 : ∀ h ∈ rest, (c.notes h).id = none ∨ now - (c.notes h).ts ≤ interval :=
      fun h hh => hk h (List.mem_cons_of_mem _ hh)
    have hstep : sweep now interval c (e :: rest) ts =
        sweep now interval c rest (some ((c.notes e).ts + interval)) := by
      rw [sweep]
      rcases hid : (c.notes e).id with _ | k
      · rfl
      · dsimp only
        have : ¬ now - (c.notes e).ts > interval := by
          rcases hk e (List.mem_cons_self _ _) with h | h
          · rw [hid] at h; cases h
          · omega
        rw [if_neg this]
    rw [hstep, ih hk1]
    cases rest with
    | nil => simp
    | cons b rest =>
      rw [List.getLast?_cons_cons, List.getLast?_eq_getLast (b :: rest) (by simp)]
      rfl

/-- C14, counterexample. On `fullCache` at time 50 with a ttl of 100 nothing
has expired and both entries survive; the last access times do not decrease
from the back (1, key 0) to the front (3, key 1). The pass yields the deadline
103, the last access of the entry at the front plus the ttl: it is not the 101
of the survivor nearest the back, and it is later than the expiry of that
survivor, so it is not a lower bound. -/
theorem C14_deadline_from_front_entry :
    (backgroundCleanup fullCache 50 100).1.list = [1, 0] ∧
    OldestAtBack fullCache ∧
    (backgroundCleanup fullCache 50 100).2 = some 103 ∧
    (fullCache.notes 0).ts + 100 = 101 ∧
    ¬ (∀ d, (backgroundCleanup fullCache 50 100).2 = some d →
        ∀ h ∈ (backgroundCleanup fullCache 50 100).1.list, d ≤ (fullCache.notes h).ts + 100) := by
  refine ⟨by decide, by unfold OldestAtBack; decide, by decide, by decide, ?_⟩
  intro h
  have := h 103 (by decide) 0 (by decide)
  exact absurd this (by decide)

/-- C14, amended. On a cache whose list holds an element once, a pass that
finds no entry to remove (every entry is not ready or within the ttl) leaves
the cache as it is and yields the last access plus ttl of the entry at the
front of the list, the last one met walking from the back, and the zero `ts`
exactly when the list is empty. For every state whose last access times do not
decrease from the back to the front that deadline is no earlier than the last
access plus ttl of any entry: it bounds the expiries of the entries from above,
not from below. -/
theorem C14_deadline_without_removal (c : impl) (now ttl : Int) (hn : c.list.Nodup)
    (hk : ∀ h ∈ c.list, (c.notes h).id = none ∨ now - (c.notes h).ts ≤ ttl) :
    backgroundCleanup c now ttl = (c, c.list.head?.map fun h => (c.notes h).ts + ttl) ∧
    ((backgroundCleanup c now ttl).2 = none ↔ c.list = []) ∧
    (OldestAtBack c → ∀ d, (backgroundCleanup c now ttl).2 = some d →
      ∀ h ∈ c.list, (c.notes h).ts + ttl ≤ d) := by
  have h1 : backgroundCleanup c now ttl =
      (c, c.list.head?.map fun h => (c.notes h).ts + ttl) := by
    rw [(backgroundCleanup_eq_sweep c now ttl hn).1,
      sweep_all_kept now ttl c c.list.reverse (fun h hh => hk h (List.mem_reverse.1 hh)) none,
      List.getLast?_reverse]
    simp
  refine ⟨h1, ?_, ?_⟩
  · rw [h1]
    cases c.list <;> simp
  · intro hm d hd h hh
    rw [h1] at hd
    unfold OldestAtBack at hm
    cases hl : c.list with
    | nil => rw [hl] at hh; cases hh
    | cons a l =>
      rw [hl] at hd hm hh
      simp only [List.head?_cons, Option.map_some', Option.some.injEq] at hd
      rcases List.mem_cons.1 hh with rfl | hh
      · omega
      · have := (List.pairwise_cons.1 hm).1 h hh
        omega

/-- C14 amended, on `fullCache` at time 50 with a ttl of 100: the deadline is
103, from the entry at the front, and no entry expires later. -/
theorem C14_deadline_without_removal_witness :
    fullCache.list.Nodup ∧
    (∀ h ∈ fullCache.list, (fullCache.notes h).id = none ∨ 50 - (fullCache.notes h).ts ≤ 100) ∧
    backgroundCleanup fullCache 50 100 = (fullCache, some 103) ∧
    (OldestAtBack fullCache → ∀ d, (backgroundCleanup fullCache 50 100).2 = some d →
      ∀ h ∈ fullCache.list, (fullCache.notes h).ts + 100 ≤ d) := by
  have hn : fullCache.list.Nodup := by decide
  have hk : ∀ h ∈ fullCache.list,
      (fullCache.notes h).id = none ∨ 50 - (fullCache.notes h).ts ≤ 100 := by
    intro h hh
    have : h = 1 ∨ h = 0 := by simpa [fullCache] using hh
    rcases this with rfl | rfl
    · exact Or.inr (by decide)
    · exact Or.inr (by decide)
  have h := C14_deadline_without_removal fullCache 50 100 hn hk
  exact ⟨hn, hk, h.1, h.2.2⟩

/-! ## Interleavings -/

/-- C15, the code at a failing input. Capacity 1 and two callers, `Fetch(1)`
and `Fetch(2)`. After the locked section of the first caller the list is full
and the element at its back is the placeholder of key 1, which is not ready:
the locked section of the second caller picks it for eviction, and reading its
id dereferences nil, so the step panics. -/
theorem C15_placeholder_is_evicted :
    (play ⟨New testFetcher 100 1, []⟩ [.enter 1 0]).map
      (fun w => (w.cache.list, Back w.cache.list, (w.cache.notes 0).id, w.waiting,
        decide ((w.cache.list.length : Int) ≥ w.cache.cap))) =
      some ([0], some 0, none, [{ id := 1, el := 0 }], true) ∧
    ((play ⟨New testFetcher 100 1, []⟩ [.enter 1 0]).bind fun w => evict w.cache).isNone = true ∧
    (play ⟨New testFetcher 100 1, []⟩ [.enter 1 0, .enter 2 1]).isNone = true := by
  refine ⟨by rfl, by rfl, by rfl⟩

/-- C16, the code at a failing input. A source that always fails and three
callers of `Fetch(7)`: the first creates the placeholder 0, the second joins
it, the first fails and removes the placeholder and the key, the third creates
the placeholder 1 and maps the key to it. The failure step of the second
caller, whose own element 0 is no longer in the list, then deletes the key from
the map although it maps to the element 1: that element is left in the list
and is no longer reachable from the map. -/
theorem C16_failure_deletes_foreign_mapping :
    (play ⟨New failingFetcher 100 1000, []⟩
        [.enter 7 0, .enter 7 1, .leave 0 2, .enter 7 3]).map
      (fun w => (w.cache.list, w.cache.valMap, w.waiting)) =
      some ([1], [(7, 1)], [{ id := 7, el := 0 }, { id := 7, el := 1 }]) ∧
    (play ⟨New failingFetcher 100 1000, []⟩
        [.enter 7 0, .enter 7 1, .leave 0 2, .enter 7 3, .leave 0 4]).map
      (fun w => (w.cache.list, w.cache.valMap, Load w.cache.valMap 7, w.waiting)) =
      some ([1], [], none, [{ id := 7, el := 1 }]) := by
  refine ⟨by rfl, by rfl⟩

/-! ## Transparency of the decorators -/

theorem evict_fetcher (c : impl) (g : Fetcher) :
    evict { c with fetcher := g } = (evict c).map fun c1 => { c1 with fetcher := g } := by
  unfold evict
  dsimp only
  by_cases hge : (c.list.length : Int) ≥ c.cap
  · rw [if_pos hge, if_pos hge]
    rcases hb : Back c.list with _ | e
    · rfl
    · dsimp only
      rcases hid : (c.notes e).id with _ | k
      · rfl
      · rfl
  · rw [if_neg hge, if_neg hge]
    rfl

theorem complete_fetcher (c : impl) (g : Fetcher)
    (hg : ∀ log id, g log id = returned (c.fetcher log id)) (t : Int) (el : Nat) (id : Int) :
    complete { c with fetcher := g } t el id =
      ((complete c t el id).1, { (complete c t el id).2 with fetcher := g }) := by
  unfold complete
  dsimp only
  rcases hid : (c.notes el).id with _ | k
  · dsimp only
    rw [hg]
    unfold returned
    rcases hq : (c.fetcher c.calls id).2 with _ | err
    · rfl
    · rfl
  · rfl

theorem admission_fetcher (c : impl) (g : Fetcher) (now id : Int) :
    admission { c with fetcher := g } now id =
      (admission c now id).map fun p => ({ p.1 with fetcher := g }, p.2) := by
  unfold admission
  dsimp only
  rcases hl : Load c.valMap id with _ | el
  · dsimp only
    rw [evict_fetcher]
    rcases evict c with _ | c1
    · rfl
    · rfl
  · rfl

theorem admission_keeps_fetcher {c c1 : impl} {now id : Int} {el : Nat}
    (h : admission c now id = some (c1, el)) : c1.fetcher = c.fetcher := by
  unfold admission at h
  rcases hl : Load c.valMap id with _ | e
  · rw [hl] at h
    dsimp only at h
    rcases he : evict c with _ | c0
    · rw [he] at h; cases h
    · rw [he] at h
      simp only [Option.map_some', Option.some.injEq, Prod.mk.injEq] at h
      rw [← h.1]
      exact (evict_frame he).2.2.2.1
  · rw [hl] at h
    simp only [Option.some.injEq, Prod.mk.injEq] at h
    rw [← h.1]

/-- The outcome of `Fetch` is the same with a source `g` that gives back what
the source of the cache gives, the value next to an error discarded. -/
theorem Fetch_fetcher (c : impl) (g : Fetcher)
    (hg : ∀ log id, g log id = returned (c.fetcher log id)) (now later id : Int) :
    Fetch { c with fetcher := g } now later id =
      (Fetch c now later id).map fun r => (r.1, { r.2 with fetcher := g }) := by
  have hslow : ((admission { c with fetcher := g } now id).map
        fun p => complete p.1 later p.2 id) =
      ((admission c now id).map fun p => complete p.1 later p.2 id).map
        fun r => (r.1, { r.2 with fetcher := g }) := by
    rw [admission_fetcher]
    rcases ha : admission c now id with _ | ⟨c1, el⟩
    · rfl
    · simp only [Option.map_some']
      have hf : c1.fetcher = c.fetcher := admission_keeps_fetcher ha
      exact congrArg some (complete_fetcher c1 g (by rw [hf]; exact hg) later el id)
  unfold Fetch
  dsimp only
  rcases hl : Load c.valMap id with _ | el
  · exact hslow
  · dsimp only
    by_cases hr : (c.notes el).id ≠ none
    · rw [if_pos hr, if_pos hr]
      rfl
    · rw [if_neg hr, if_neg hr]
      exact hslow

/-- Every result `Fetch` returns is `(v, nil)` or `("", err)`. -/
theorem Fetch_returned {c c1 : impl} {now later id : Int} {r : Result}
    (h : Fetch c now later id = some (r, c1)) : returned r = r := by
  have hc : ∀ (d : impl) (t : Int) (el : Nat),
      returned (complete d t el id).1 = (complete d t el id).1 := by
    intro d t el
    unfold complete
    rcases (d.notes el).id with _ | k
    · dsimp only
      rcases (d.fetcher d.calls id).2 with _ | err
      · rfl
      · rfl
    · rfl
  have hslow : ((admission c now id).map fun p => complete p.1 later p.2 id) = some (r, c1) →
      returned r = r := by
    intro h1
    rcases ha : admission c now id with _ | ⟨d, el⟩
    · rw [ha] at h1
      cases h1
    · rw [ha] at h1
      simp only [Option.map_some', Option.some.injEq] at h1
      have := hc d later el
      rw [h1] at this
      exact this
  unfold Fetch at h
  rcases hl : Load c.valMap id with _ | el
  · rw [hl] at h
    exact hslow h
  · rw [hl] at h
    dsimp only at h
    by_cases hr : (c.notes el).id ≠ none
    · rw [if_pos hr] at h
      simp only [hit, Option.some.injEq, Prod.mk.injEq] at h
      rw [← h.1]
      rfl
    · rw [if_neg hr] at h
      exact hslow h

theorem loggerZapFetch_spec {σ : Type} (base : Base σ) (s : σ) (id : Int) :
    (loggerZapFetch base s id).1 = returned (base s id).1 ∧
    (loggerZapFetch base s id).2.1 = (base s id).2 := by
  unfold loggerZapFetch returned
  dsimp only
  rcases (base s id).1.2 with _ | err
  · exact ⟨rfl, rfl⟩
  · exact ⟨rfl, rfl⟩

theorem metricsFetch_spec {σ : Type} (base : Base σ) (s : σ) (id start stop : Int) :
    (metricsFetch base s id start stop).1 = returned (base s id).1 ∧
    (metricsFetch base s id start stop).2.1 = (base s id).2 := by
  unfold metricsFetch returned
  dsimp only
  rcases (base s id).1.2 with _ | err
  · exact ⟨rfl, rfl⟩
  · exact ⟨rfl, rfl⟩

theorem traceFetch_spec {σ : Type} (base : Base σ) (s : σ) (id : Int) :
    (traceFetch base s id).1 = returned (base s id).1 ∧
    (traceFetch base s id).2.1 = (base s id).2 := by
  unfold traceFetch returned
  dsimp only
  rcases (base s id).1.2 with _ | err
  · exact ⟨rfl, rfl⟩
  · exact ⟨rfl, rfl⟩

theorem returned_ok {r : Result} {v : String} (h : r = (v, none)) : returned r = (v, none) := by
  subst h; rfl

theorem returned_err {r : Result} {v : String} {e : Error} (h : r = (v, some e)) :
    returned r = ("", some e) := by
  subst h; rfl

/-- C19. Each of the decorators `loggerZap`, `metrics` and `trace`, for every
base with any state and every id: its `Fetch` leaves the base in the state
after one call `base.Fetch(id)` (for a source with a log of its invocations,
the log grown by exactly `id`), returns `(v, nil)` when the base returns
`(v, nil)`, and returns the empty string with the same error when the base
returns an error. Hence a cache whose source is wrapped in a decorator returns
from every `Fetch` what it returns with the bare source, and a decorator
wrapped around the cache returns the result of the cache. -/
theorem C19_decorators_are_transparent :
    (∀ (σ : Type) (base : Base σ) (s : σ) (id start stop : Int),
      ((loggerZapFetch base s id).2.1 = (base s id).2 ∧
        (metricsFetch base s id start stop).2.1 = (base s id).2 ∧
        (traceFetch base s id).2.1 = (base s id).2) ∧
      (∀ v, (base s id).1 = (v, none) →
        (loggerZapFetch base s id).1 = (v, none) ∧
        (metricsFetch base s id start stop).1 = (v, none) ∧
        (traceFetch base s id).1 = (v, none)) ∧
      (∀ v e, (base s id).1 = (v, some e) →
        (loggerZapFetch base s id).1 = ("", some e) ∧
        (metricsFetch base s id start stop).1 = ("", some e) ∧
        (traceFetch base s id).1 = ("", some e))) ∧
    (∀ (f : Fetcher) (log : List Int) (id start stop : Int),
      (loggerZapFetch (logged f) log id).2.1 = log ++ [id] ∧
      (metricsFetch (logged f) log id start stop).2.1 = log ++ [id] ∧
      (traceFetch (logged f) log id).2.1 = log ++ [id]) ∧
    (∀ (c : impl) (now later id start stop : Int),
      Fetch { c with fetcher := fun log k => (loggerZapFetch (logged c.fetcher) log k).1 }
          now later id =
        ((Fetch c now later id).map fun r => (r.1, { r.2 with
          fetcher := fun log k => (loggerZapFetch (logged c.fetcher) log k).1 })) ∧
      Fetch { c with
          fetcher := fun log k => (metricsFetch (logged c.fetcher) log k start stop).1 }
          now later id =
        ((Fetch c now later id).map fun r => (r.1, { r.2 with
          fetcher := fun log k => (metricsFetch (logged c.fetcher) log k start stop).1 })) ∧
      Fetch { c with fetcher := fun log k => (traceFetch (logged c.fetcher) log k).1 }
          now later id =
        ((Fetch c now later id).map fun r => (r.1, { r.2 with
          fetcher := fun log k => (traceFetch (logged c.fetcher) log k).1 }))) ∧
    (∀ (c c1 : impl) (now later id start stop : Int) (r : Result),
      Fetch c now later id = some (r, c1) →
      ∀ base : Base impl, base c id = (r, c1) →
        (loggerZapFetch base c id).1 = r ∧ (loggerZapFetch base c id).2.1 = c1 ∧
        (metricsFetch base c id start stop).1 = r ∧
        (metricsFetch base c id start stop).2.1 = c1 ∧
        (traceFetch base c id).1 = r ∧ (traceFetch base c id).2.1 = c1) := by
  refine ⟨?_, ?_, ?_, ?_⟩
  · intro σ base s id start stop
    obtain ⟨a1, a2⟩ := loggerZapFetch_spec base s id
    obtain ⟨b1, b2⟩ := metricsFetch_spec base s id start stop
    obtain ⟨c1, c2⟩ := traceFetch_spec base s id
    refine ⟨⟨a2, b2, c2⟩, fun v hv => ?_, fun v e hv => ?_⟩
    · rw [a1, b1, c1, returned_ok hv]
      exact ⟨rfl, rfl, rfl⟩
    · rw [a1, b1, c1, returned_err hv]
      exact ⟨rfl, rfl, rfl⟩
  · intro f log id start stop
    exact ⟨(loggerZapFetch_spec (logged f) log id).2,
      (metricsFetch_spec (logged f) log id start stop).2,
      (traceFetch_spec (logged f) log id).2⟩
  · intro c now later id start stop
    refine ⟨Fetch_fetcher c _ (fun log k => ?_) now later id,
      Fetch_fetcher c _ (fun log k => ?_) now later id,
      Fetch_fetcher c _ (fun log k => ?_) now later id⟩
    · exact (loggerZapFetch_spec (logged c.fetcher) log k).1
    · exact (metricsFetch_spec (logged c.fetcher) log k start stop).1
    · exact (traceFetch_spec (logged c.fetcher) log k).1
  · intro c c1 now later id start stop r hF base hb
    have hr : returned r = r := Fetch_returned hF
    obtain ⟨a1, a2⟩ := loggerZapFetch_spec base c id
    obtain ⟨b1, b2⟩ := metricsFetch_spec base c id start stop
    obtain ⟨d1, d2⟩ := traceFetch_spec base c id
    rw [hb] at a1 a2 b1 b2 d1 d2
    exact ⟨a1.trans hr, a2, b1.trans hr, b2, d1.trans hr, d2⟩

/-- C19 on the source of `Test_ErrorHandling`: on its first invocation for the
id 0 it fails, and each decorator returns the empty string with that error; on
its second it answers "test0", which each decorator returns; each time the
source has been invoked once more, with 0. The observation of `metrics` is
labelled "error" and then "success". -/
theorem C19_decorators_are_transparent_witness :
    (logged flakyFetcher [] 0).1 = ("", some "error") ∧
    (logged flakyFetcher [0] 0).1 = ("test0", none) ∧
    ((loggerZapFetch (logged flakyFetcher) [] 0).1 = ("", some "error") ∧
      (metricsFetch (logged flakyFetcher) [] 0 10 12).1 = ("", some "error") ∧
      (traceFetch (logged flakyFetcher) [] 0).1 = ("", some "error")) ∧
    ((loggerZapFetch (logged flakyFetcher) [0] 0).1 = ("test0", none) ∧
      (metricsFetch (logged flakyFetcher) [0] 0 10 12).1 = ("test0", none) ∧
      (traceFetch (logged flakyFetcher) [0] 0).1 = ("test0", none)) ∧
    ((loggerZapFetch (logged flakyFetcher) [0] 0).2.1 = [0] ++ [0] ∧
      (metricsFetch (logged flakyFetcher) [0] 0 10 12).2.1 = [0] ++ [0] ∧
      (traceFetch (logged flakyFetcher) [0] 0).2.1 = [0] ++ [0]) ∧
    (metricsFetch (logged flakyFetcher) [] 0 10 12).2.2 = [("error", 2)] ∧
    (metricsFetch (logged flakyFetcher) [0] 0 10 12).2.2 = [("success", 2)] :=
  ⟨by decide, by decide,
    (C19_decorators_are_transparent.1 (List Int) (logged flakyFetcher) [] 0 10 12).2.2
      "" "error" (by decide),
    (C19_decorators_are_transparent.1 (List Int) (logged flakyFetcher) [0] 0 10 12).2.1
      "test0" (by decide),
    C19_decorators_are_transparent.2.1 flakyFetcher [0] 0 10 12,
    by decide, by decide⟩

end Cache
